import Mathlib

/-!
Verification of the `search_and_ranking_demo/search` package.

Each Python module is shallowly embedded below: pure functions become Lean
functions, pandas tables become lists of records, Python floats become exact
rationals (`ℚ`) where the code only performs field arithmetic, and reals
(`ℝ`) where the code takes logarithms or square roots.  External library
collaborators (sentence-transformers models, xgboost) are abstracted as
function-valued parameters, mirroring how the code only consumes them
through narrow call interfaces.
-/

namespace SearchDemo

/-! ## Query normalization (`query_understanding.normalize_query`)

The Python code is

    cleaned = re.sub(r"[^a-z0-9\s]", " ", text.lower())
    cleaned = re.sub(r"\s+", " ", cleaned).strip()

Strings are modelled as their character lists; `str.lower` is modelled
character-wise (basic-latin case folding, `Char.toLower`), and the regex
class `\s` by the six ASCII whitespace characters it matches.
-/

/-- The characters matched by the regex class `\s` (ASCII range). -/
def pyIsSpace (c : Char) : Bool :=
  c = ' ' || c = '\t' || c = '\n' || c = '\r' || c = '\x0b' || c = '\x0c'

/-- A lowercase latin letter `[a-z]`. -/
def isLowerAZ (c : Char) : Bool :=
  97 ≤ c.toNat && c.toNat ≤ 122

/-- A decimal digit `[0-9]`. -/
def isDigit09 (c : Char) : Bool :=
  48 ≤ c.toNat && c.toNat ≤ 57

/-- A character kept by `re.sub(r"[^a-z0-9\s]", " ", ·)`. -/
def keepChar (c : Char) : Bool :=
  isLowerAZ c || isDigit09 c || pyIsSpace c

/-- `re.sub(r"[^a-z0-9\s]", " ", ·)`: every non-kept character becomes a space. -/
def subNonAlnum (l : List Char) : List Char :=
  l.map fun c => if keepChar c then c else ' '

/-- `re.sub(r"\s+", " ", ·)`: each maximal whitespace run collapses to one space. -/
def collapseSpaces : List Char → List Char
  | [] => []
  | c :: cs =>
    if pyIsSpace c then ' ' :: collapseSpaces (cs.dropWhile pyIsSpace)
    else c :: collapseSpaces cs
termination_by l => l.length
decreasing_by
  · exact Nat.lt_succ_of_le (List.Sublist.length_le (cs.dropWhile_sublist pyIsSpace))
  · exact Nat.lt_succ_self _

/-- `str.strip()`: remove leading and trailing whitespace. -/
def pyStrip (l : List Char) : List Char :=
  ((l.dropWhile pyIsSpace).reverse.dropWhile pyIsSpace).reverse

/-- `normalize_query` from `query_understanding.py`, on character lists. -/
def normalizeChars (l : List Char) : List Char :=
  pyStrip (collapseSpaces (subNonAlnum (l.map Char.toLower)))

/-- `normalize_query(text)`: lowercase, strip punctuation, collapse whitespace. -/
def normalize_query (s : String) : String :=
  ⟨normalizeChars s.data⟩

/-- A character allowed in normalized output: lowercase alphanumeric or space. -/
def normalChar (c : Char) : Bool :=
  isLowerAZ c || isDigit09 c || c = ' '

/-- No two adjacent characters of the list are whitespace. -/
def noDoubleSpace : List Char → Bool
  | a :: b :: t => (!(pyIsSpace a && pyIsSpace b)) && noDoubleSpace (b :: t)
  | _ => true

theorem pyIsSpace_space : pyIsSpace ' ' = true := by decide

theorem not_space_of_lower {c : Char} (h : isLowerAZ c = true) : pyIsSpace c = false := by
  simp only [isLowerAZ, Bool.and_eq_true, decide_eq_true_eq] at h
  simp only [pyIsSpace, Bool.or_eq_false_iff, decide_eq_false_iff_not]
  refine ⟨⟨⟨⟨⟨?_, ?_⟩, ?_⟩, ?_⟩, ?_⟩, ?_⟩ <;> rintro rfl <;> revert h <;> decide

theorem not_space_of_digit {c : Char} (h : isDigit09 c = true) : pyIsSpace c = false := by
  simp only [isDigit09, Bool.and_eq_true, decide_eq_true_eq] at h
  simp only [pyIsSpace, Bool.or_eq_false_iff, decide_eq_false_iff_not]
  refine ⟨⟨⟨⟨⟨?_, ?_⟩, ?_⟩, ?_⟩, ?_⟩, ?_⟩ <;> rintro rfl <;> revert h <;> decide

theorem keepChar_of_normal {c : Char} (h : normalChar c = true) : keepChar c = true := by
  simp only [normalChar, Bool.or_eq_true] at h
  rcases h with (h | h) | h
  · simp [keepChar, h]
  · simp [keepChar, h]
  · simp only [decide_eq_true_eq] at h
    subst h
    decide

theorem mem_subNonAlnum {l : List Char} {c : Char} (h : c ∈ subNonAlnum l) :
    keepChar c = true := by
  simp only [subNonAlnum, List.mem_map] at h
  obtain ⟨x, _, hx⟩ := h
  by_cases hk : keepChar x = true
  · rw [if_pos hk] at hx; exact hx ▸ hk
  · rw [if_neg hk] at hx; subst hx; decide

theorem mem_collapseSpaces {l : List Char} :
    ∀ c ∈ collapseSpaces l, (c ∈ l ∧ pyIsSpace c = false) ∨ c = ' ' := by
  induction l using collapseSpaces.induct with
  | case1 => simp [collapseSpaces]
  | case2 c cs h ih =>
    intro x hx
    rw [collapseSpaces, if_pos h] at hx
    rw [List.mem_cons] at hx
    rcases hx with rfl | hx
    · right; rfl
    · rcases ih x hx with ⟨hm, hs⟩ | rfl
      · exact Or.inl ⟨List.mem_cons_of_mem _ (List.dropWhile_subset pyIsSpace hm), hs⟩
      · right; rfl
  | case3 c cs h ih =>
    intro x hx
    rw [collapseSpaces, if_neg h] at hx
    rw [List.mem_cons] at hx
    rcases hx with rfl | hx
    · exact Or.inl ⟨List.mem_cons_self _ _, by simpa using h⟩
    · rcases ih x hx with ⟨hm, hs⟩ | rfl
      · exact Or.inl ⟨List.mem_cons_of_mem _ hm, hs⟩
      · right; rfl

theorem head?_dropWhile {p : Char → Bool} :
    ∀ {l : List Char} {c : Char}, (l.dropWhile p).head? = some c → p c = false := by
  intro l
  induction l with
  | nil => intro c h; simp [List.dropWhile] at h
  | cons a t ih =>
    intro c h
    rw [List.dropWhile_cons] at h
    by_cases hp : p a = true
    · rw [if_pos hp] at h; exact ih h
    · rw [if_neg hp] at h
      simp only [List.head?_cons, Option.some_inj] at h
      subst h
      simpa using hp

theorem head?_collapseSpaces {l : List Char} {c : Char}
    (hl : ∀ d, l.head? = some d → pyIsSpace d = false)
    (h : (collapseSpaces l).head? = some c) : pyIsSpace c = false := by
  cases l with
  | nil => simp [collapseSpaces] at h
  | cons a t =>
    have ha : pyIsSpace a = false := hl a rfl
    rw [collapseSpaces, if_neg (by simp [ha])] at h
    simp only [List.head?_cons, Option.some_inj] at h
    exact h ▸ ha

theorem noDoubleSpace_collapseSpaces (l : List Char) :
    noDoubleSpace (collapseSpaces l) = true := by
  induction l using collapseSpaces.induct with
  | case1 => simp [collapseSpaces, noDoubleSpace]
  | case2 c cs h ih =>
    rw [collapseSpaces, if_pos h]
    cases hc : collapseSpaces (cs.dropWhile pyIsSpace) with
    | nil => simp [noDoubleSpace]
    | cons b t =>
      have hb : pyIsSpace b = false := by
        refine head?_collapseSpaces (l := cs.dropWhile pyIsSpace)
          (fun d hd => head?_dropWhile hd) ?_
        rw [hc]; rfl
      rw [noDoubleSpace]
      simp only [Bool.and_eq_true, Bool.not_eq_true']
      exact ⟨by simp [hb], hc ▸ ih⟩
  | case3 c cs h ih =>
    rw [collapseSpaces, if_neg h]
    cases hc : collapseSpaces cs with
    | nil => simp [noDoubleSpace]
    | cons b t =>
      rw [noDoubleSpace]
      simp only [Bool.and_eq_true, Bool.not_eq_true']
      exact ⟨by simp [Bool.not_eq_true] at h; simp [h], hc ▸ ih⟩

theorem noDoubleSpace_append_right {l r : List Char}
    (h : noDoubleSpace (l ++ r) = true) : noDoubleSpace r = true := by
  induction l with
  | nil => simpa using h
  | cons a t ih =>
    apply ih
    cases ht : t ++ r with
    | nil => simp [ht, noDoubleSpace]
    | cons b u =>
      rw [List.cons_append, ht, noDoubleSpace, Bool.and_eq_true] at h
      exact ht ▸ h.2

theorem noDoubleSpace_append_left {l r : List Char}
    (h : noDoubleSpace (l ++ r) = true) : noDoubleSpace l = true := by
  induction l with
  | nil => rfl
  | cons a t ih =>
    cases t with
    | nil => rfl
    | cons b u =>
      rw [List.cons_append, List.cons_append, noDoubleSpace, Bool.and_eq_true] at h
      rw [noDoubleSpace, Bool.and_eq_true]
      exact ⟨h.1, ih (by rw [List.cons_append]; exact h.2)⟩

/-- `pyStrip l` is a prefix of `l.dropWhile pyIsSpace`: the tail-stripping pass
only removes elements from the end. -/
theorem pyStrip_append :
    ∀ l : List Char, ∃ t, pyStrip l ++ t = l.dropWhile pyIsSpace := by
  intro l
  refine ⟨((l.dropWhile pyIsSpace).reverse.takeWhile pyIsSpace).reverse, ?_⟩
  rw [pyStrip, ← List.reverse_append, List.takeWhile_append_dropWhile, List.reverse_reverse]

theorem head?_pyStrip {l : List Char} {c : Char}
    (h : (pyStrip l).head? = some c) : pyIsSpace c = false := by
  obtain ⟨t, ht⟩ := pyStrip_append l
  cases hs : pyStrip l with
  | nil => rw [hs] at h; simp at h
  | cons a u =>
    rw [hs] at h
    simp only [List.head?_cons, Option.some_inj] at h
    rw [hs] at ht
    have ha : (l.dropWhile pyIsSpace).head? = some a := by
      rw [← ht]; rfl
    exact h ▸ head?_dropWhile ha

theorem getLast?_pyStrip {l : List Char} {c : Char}
    (h : (pyStrip l).getLast? = some c) : pyIsSpace c = false := by
  rw [pyStrip, List.getLast?_reverse] at h
  exact head?_dropWhile h

theorem mem_pyStrip {l : List Char} {c : Char} (h : c ∈ pyStrip l) : c ∈ l := by
  rw [pyStrip, List.mem_reverse] at h
  exact List.dropWhile_subset _ (by simpa using List.dropWhile_subset _ h)

theorem noDoubleSpace_pyStrip {l : List Char}
    (h : noDoubleSpace l = true) : noDoubleSpace (pyStrip l) = true := by
  obtain ⟨t, ht⟩ := pyStrip_append l
  have hd : noDoubleSpace (l.dropWhile pyIsSpace) = true := by
    have := List.takeWhile_append_dropWhile (p := pyIsSpace) (l := l)
    exact noDoubleSpace_append_right (by rw [this]; exact h)
  exact noDoubleSpace_append_left (ht ▸ hd)

/-- Characters of the normalized output are lowercase alphanumerics or spaces. -/
theorem normalizeChars_charset {l : List Char} :
    ∀ c ∈ normalizeChars l, normalChar c = true := by
  intro c hc
  have h1 := mem_pyStrip hc
  rcases mem_collapseSpaces c h1 with ⟨hm, hs⟩ | rfl
  · have hk := mem_subNonAlnum hm
    simp only [keepChar, Bool.or_eq_true] at hk
    rcases hk with (hk | hk) | hk
    · simp [normalChar, hk]
    · simp [normalChar, hk]
    · rw [hk] at hs; cases hs
  · decide

theorem normalizeChars_noDouble (l : List Char) :
    noDoubleSpace (normalizeChars l) = true :=
  noDoubleSpace_pyStrip (noDoubleSpace_collapseSpaces _)

theorem toLower_fix {c : Char} (h : normalChar c = true) : c.toLower = c := by
  rw [Char.toLower]
  simp only [normalChar, Bool.or_eq_true, isLowerAZ, isDigit09, Bool.and_eq_true,
    decide_eq_true_eq] at h
  rw [if_neg]
  rcases h with (h | h) | h
  · omega
  · omega
  · subst h; decide

theorem map_toLower_fix {l : List Char} (h : ∀ c ∈ l, normalChar c = true) :
    l.map Char.toLower = l := by
  induction l with
  | nil => rfl
  | cons a t ih =>
    rw [List.map_cons, toLower_fix (h a (List.mem_cons_self _ _)),
      ih (fun c hc => h c (List.mem_cons_of_mem _ hc))]

theorem subNonAlnum_fix {l : List Char} (h : ∀ c ∈ l, normalChar c = true) :
    subNonAlnum l = l := by
  induction l with
  | nil => rfl
  | cons a t ih =>
    rw [subNonAlnum, List.map_cons, if_pos (keepChar_of_normal (h a (List.mem_cons_self _ _)))]
    have := ih (fun c hc => h c (List.mem_cons_of_mem _ hc))
    rw [subNonAlnum] at this
    rw [this]

theorem space_eq_of_normal {c : Char} (hn : normalChar c = true)
    (hs : pyIsSpace c = true) : c = ' ' := by
  simp only [normalChar, Bool.or_eq_true, decide_eq_true_eq] at hn
  rcases hn with (h | h) | h
  · rw [not_space_of_lower h] at hs; cases hs
  · rw [not_space_of_digit h] at hs; cases hs
  · exact h

theorem collapseSpaces_fix {l : List Char} (hn : ∀ c ∈ l, normalChar c = true)
    (hd : noDoubleSpace l = true) : collapseSpaces l = l := by
  induction l with
  | nil => simp [collapseSpaces]
  | cons a t ih =>
    have hnt : ∀ c ∈ t, normalChar c = true := fun c hc => hn c (List.mem_cons_of_mem _ hc)
    have hdt : noDoubleSpace t = true := by
      cases t with
      | nil => rfl
      | cons b u => rw [noDoubleSpace, Bool.and_eq_true] at hd; exact hd.2
    by_cases hs : pyIsSpace a = true
    · have ha : a = ' ' := space_eq_of_normal (hn a (List.mem_cons_self _ _)) hs
      rw [collapseSpaces, if_pos hs]
      have hdw : t.dropWhile pyIsSpace = t := by
        cases t with
        | nil => rfl
        | cons b u =>
          rw [noDoubleSpace, Bool.and_eq_true, Bool.not_eq_true', Bool.and_eq_false_iff] at hd
          rcases hd.1 with hb | hb
          · rw [hb] at hs; cases hs
          · rw [List.dropWhile_cons, if_neg (by simp [hb])]
      rw [hdw, ih hnt hdt, ha]
    · rw [collapseSpaces, if_neg hs, ih hnt hdt]

theorem dropWhile_fix {p : Char → Bool} {l : List Char}
    (h : ∀ c, l.head? = some c → p c = false) : l.dropWhile p = l := by
  cases l with
  | nil => rfl
  | cons a t => rw [List.dropWhile_cons, if_neg (by simp [h a rfl])]

theorem pyStrip_fix {l : List Char}
    (h1 : ∀ c, l.head? = some c → pyIsSpace c = false)
    (h2 : ∀ c, l.getLast? = some c → pyIsSpace c = false) : pyStrip l = l := by
  rw [pyStrip, dropWhile_fix h1]
  rw [dropWhile_fix (by intro c hc; rw [List.head?_reverse] at hc; exact h2 c hc)]
  exact List.reverse_reverse l

/-- The normalized form is a fixpoint of every stage of `normalize_query`. -/
theorem normalizeChars_idem (l : List Char) :
    normalizeChars (normalizeChars l) = normalizeChars l := by
  have hset := normalizeChars_charset (l := l)
  have hdbl := normalizeChars_noDouble l
  rw [normalizeChars, map_toLower_fix hset, subNonAlnum_fix hset,
    collapseSpaces_fix hset hdbl]
  exact pyStrip_fix (fun c hc => head?_pyStrip hc) (fun c hc => getLast?_pyStrip hc)

/-- C8: `normalize` is idempotent, and its output consists only of lowercase
alphanumeric characters and single (never doubled) spaces. -/
theorem normalize_query_idempotent_charset (s : String) :
    normalize_query (normalize_query s) = normalize_query s ∧
    ((normalize_query s).data.all normalChar = true ∧
      noDoubleSpace (normalize_query s).data = true) := by
  refine ⟨?_, ?_, ?_⟩
  · show (⟨normalizeChars (normalizeChars s.data)⟩ : String) = ⟨normalizeChars s.data⟩
    rw [normalizeChars_idem]
  · rw [List.all_eq_true]
    exact normalizeChars_charset
  · exact normalizeChars_noDouble _

/-! ## Spell correction (`spell.py`)

`_levenshtein` fills the classic dynamic-programming table row by row with
unit insert/delete/substitute costs; `SpellCorrector.correct` processes each
whitespace-separated token of the query (`str.split()`), passing vocabulary
tokens (and everything, when the vocabulary is empty) through unchanged and
otherwise replacing the token by the closest vocabulary entry when that
entry is within `max_edit_distance`.
-/

/-- Python `str.split()` word scanner: maximal runs of non-separator
characters, with separators dropped.  `cur` accumulates the current word in
reverse. -/
def wordsAux (p : Char → Bool) : List Char → List Char → List (List Char)
  | [], cur => if cur.isEmpty then [] else [cur.reverse]
  | c :: cs, cur =>
    if p c then
      if cur.isEmpty then wordsAux p cs [] else cur.reverse :: wordsAux p cs []
    else wordsAux p cs (c :: cur)

/-- Python `query.split()`: whitespace-separated tokens, empties dropped. -/
def pySplit (s : String) : List String :=
  (wordsAux pyIsSpace s.data []).map fun l => ⟨l⟩

/-- One inner iteration block of the `_levenshtein` DP: compute row `i` of the
table from row `i - 1` (`prev`), walking along `b` and carrying the value to
the left (`dp[i][j-1]`). -/
def rowStep (c : Char) : List Char → List Nat → Nat → List Nat
  | b :: bs, p0 :: p1 :: ps, left =>
    let v := min (p1 + 1) (min (left + 1) (p0 + (if c = b then 0 else 1)))
    v :: rowStep c bs (p1 :: ps) v
  | _, _, _ => []

/-- `_levenshtein(a, b)`: the dynamic-programming edit distance of `spell.py`
(row 0 is `0..len(b)`, row `i` starts with `i`, and the answer is
`dp[-1][-1]`). -/
def _levenshtein (a b : String) : Nat :=
  let bs := b.data
  let row0 := List.range (bs.length + 1)
  let final := a.data.foldl
    (fun (pr : List Nat × Nat) c =>
      let i := pr.2 + 1
      (i :: rowStep c bs pr.1 i, i))
    (row0, 0)
  final.1.getLastD 0

/-- Python `min(iterable, key=k)` on a nonempty collection `x :: xs`: the
first element attaining the minimal key. -/
def pyMin (key : α → Nat) (x : α) (xs : List α) : α :=
  xs.foldl (fun b v => if key v < key b then v else b) x

/-- `SpellCorrector`: token vocabulary and correction guardrail. -/
structure SpellCorrector where
  vocab : List String
  max_edit_distance : Nat

/-- The `SpellCorrector` constructor: the vocabulary is the set of
whitespace-separated tokens of the case-folded entries (a Python `set`,
modelled as a duplicate-free list). -/
def mkSpellCorrector (entries : List String) (maxEd : Nat) : SpellCorrector :=
  { vocab := (entries.flatMap fun e => pySplit ⟨e.data.map Char.toLower⟩).dedup
    max_edit_distance := maxEd }

/-- The per-token body of `SpellCorrector.correct`'s loop, on an explicit
vocabulary list. -/
def correctTokenCore (maxEd : Nat) (token : String) : List String → String
  | [] => token
  | v :: vs =>
    if (v :: vs).contains token then token
    else
      let best := pyMin (fun w => _levenshtein token w) v vs
      if _levenshtein token best ≤ maxEd then best else token

/-- The per-token body of `SpellCorrector.correct`'s loop. -/
def correctToken (sc : SpellCorrector) (token : String) : String :=
  correctTokenCore sc.max_edit_distance token sc.vocab

/-- `SpellCorrector.correct(query)`: correct each token, rejoin with spaces. -/
def correct (sc : SpellCorrector) (query : String) : String :=
  String.intercalate " " ((pySplit query).map (correctToken sc))

theorem pyMin_mem (key : α → Nat) (x : α) (xs : List α) :
    pyMin key x xs ∈ x :: xs := by
  induction xs generalizing x with
  | nil => exact List.mem_cons_self _ _
  | cons y ys ih =>
    have hstep : pyMin key x (y :: ys) =
        pyMin key (if key y < key x then y else x) ys := rfl
    rw [hstep]
    by_cases hlt : key y < key x
    · rw [if_pos hlt]
      rcases List.mem_cons.mp (ih y) with h | h
      · rw [h]
        exact List.mem_cons_of_mem _ (List.mem_cons_self _ _)
      · exact List.mem_cons_of_mem _ (List.mem_cons_of_mem _ h)
    · rw [if_neg hlt]
      rcases List.mem_cons.mp (ih x) with h | h
      · rw [h]
        exact List.mem_cons_self _ _
      · exact List.mem_cons_of_mem _ (List.mem_cons_of_mem _ h)

theorem pyMin_le (key : α → Nat) (x : α) (xs : List α) :
    ∀ v ∈ x :: xs, key (pyMin key x xs) ≤ key v := by
  induction xs generalizing x with
  | nil =>
    intro v hv
    rcases List.mem_cons.mp hv with h | h
    · rw [h]
      exact le_rfl
    · cases h
  | cons y ys ih =>
    intro v hv
    have hstep : pyMin key x (y :: ys) =
        pyMin key (if key y < key x then y else x) ys := rfl
    rw [hstep]
    by_cases hlt : key y < key x
    · rw [if_pos hlt]
      rcases List.mem_cons.mp hv with h | h
      · rw [h]
        exact le_of_lt (lt_of_le_of_lt (ih y y (List.mem_cons_self _ _)) hlt)
      · exact ih y v h
    · rw [if_neg hlt]
      rcases List.mem_cons.mp hv with h | h
      · rw [h]
        exact ih x x (List.mem_cons_self _ _)
      · rcases List.mem_cons.mp h with h2 | h2
        · rw [h2]
          exact le_trans (ih x x (List.mem_cons_self _ _)) (le_of_not_lt hlt)
        · exact ih x v (List.mem_cons_of_mem _ h2)

/-- C3: `correct` treats each whitespace-separated token independently;
an in-vocabulary token passes through; an out-of-vocabulary token is replaced
by a vocabulary token of minimum Levenshtein distance exactly when that
minimum distance is within `max_edit_distance`; hence no token is ever
replaced by a candidate farther than `max_edit_distance`. -/
theorem spellCorrector_correct_spec (sc : SpellCorrector) (h : sc.vocab ≠ [])
    (q t : String) :
    correct sc q = String.intercalate " " ((pySplit q).map (correctToken sc)) ∧
    (sc.vocab.contains t = true → correctToken sc t = t) ∧
    (sc.vocab.contains t = false →
      ∃ best, best ∈ sc.vocab ∧
        (∀ v ∈ sc.vocab, _levenshtein t best ≤ _levenshtein t v) ∧
        correctToken sc t =
          if _levenshtein t best ≤ sc.max_edit_distance then best else t) ∧
    (correctToken sc t ≠ t →
      correctToken sc t ∈ sc.vocab ∧
        _levenshtein t (correctToken sc t) ≤ sc.max_edit_distance) := by
  obtain ⟨v, vs, hv⟩ : ∃ v vs, sc.vocab = v :: vs := by
    cases hvc : sc.vocab with
    | nil => exact absurd hvc h
    | cons v vs => exact ⟨v, vs, rfl⟩
  have hunfold : correctToken sc t =
      if (v :: vs).contains t then t
      else
        if _levenshtein t (pyMin (fun w => _levenshtein t w) v vs) ≤
            sc.max_edit_distance
        then pyMin (fun w => _levenshtein t w) v vs else t := by
    rw [correctToken, hv, correctTokenCore]
  refine ⟨rfl, ?_, ?_, ?_⟩
  · intro hc
    rw [hv] at hc
    rw [hunfold, if_pos hc]
  · intro hc
    rw [hv] at hc
    rw [hunfold, if_neg (by simp only [hc]; exact Bool.false_ne_true)]
    exact ⟨pyMin (fun w => _levenshtein t w) v vs,
      hv ▸ pyMin_mem _ v vs, hv ▸ pyMin_le _ v vs, rfl⟩
  · intro hne
    rw [hunfold] at hne ⊢
    by_cases hc : (v :: vs).contains t = true
    · rw [if_pos hc] at hne
      exact absurd rfl hne
    · rw [if_neg hc] at hne ⊢
      by_cases hd : _levenshtein t (pyMin (fun w => _levenshtein t w) v vs) ≤
          sc.max_edit_distance
      · rw [if_pos hd] at hne ⊢
        exact ⟨hv ▸ pyMin_mem _ v vs, hd⟩
      · rw [if_neg hd] at hne
        exact absurd rfl hne

/-- Witness for C3 at a concrete corrector and query ("piza" corrects to
"pizza", the vocabulary token at distance 1). -/
theorem spellCorrector_correct_spec_witness :
    correct (mkSpellCorrector ["Pizza Pasta"] 1) "piza house" =
        String.intercalate " "
          ((pySplit "piza house").map (correctToken (mkSpellCorrector ["Pizza Pasta"] 1))) ∧
      ((mkSpellCorrector ["Pizza Pasta"] 1).vocab.contains "piza" = true →
        correctToken (mkSpellCorrector ["Pizza Pasta"] 1) "piza" = "piza") ∧
      ((mkSpellCorrector ["Pizza Pasta"] 1).vocab.contains "piza" = false →
        ∃ best, best ∈ (mkSpellCorrector ["Pizza Pasta"] 1).vocab ∧
          (∀ v ∈ (mkSpellCorrector ["Pizza Pasta"] 1).vocab,
            _levenshtein "piza" best ≤ _levenshtein "piza" v) ∧
          correctToken (mkSpellCorrector ["Pizza Pasta"] 1) "piza" =
            if _levenshtein "piza" best ≤ (mkSpellCorrector ["Pizza Pasta"] 1).max_edit_distance
            then best else "piza") ∧
      (correctToken (mkSpellCorrector ["Pizza Pasta"] 1) "piza" ≠ "piza" →
        correctToken (mkSpellCorrector ["Pizza Pasta"] 1) "piza" ∈
            (mkSpellCorrector ["Pizza Pasta"] 1).vocab ∧
          _levenshtein "piza" (correctToken (mkSpellCorrector ["Pizza Pasta"] 1) "piza") ≤
            (mkSpellCorrector ["Pizza Pasta"] 1).max_edit_distance) :=
  spellCorrector_correct_spec (mkSpellCorrector ["Pizza Pasta"] 1) (by decide)
    "piza house" "piza"

/-- C4 counterexample: a corrector built from an empty vocabulary does not
reject the call — `correct` returns a plain result (the query's tokens,
unchanged). -/
theorem emptyVocab_correct_returns :
    (mkSpellCorrector [] 1).vocab = [] ∧
      correct (mkSpellCorrector [] 1) "hello friend" = "hello friend" := by
  decide

/-- C4 amended: with an empty vocabulary, `correct` raises nothing and passes
every token through unchanged (rejoined with single spaces). -/
theorem emptyVocab_correct_id (sc : SpellCorrector) (h : sc.vocab = [])
    (q : String) : correct sc q = String.intercalate " " (pySplit q) := by
  rw [correct]
  congr 1
  have : ∀ t, correctToken sc t = t := by
    intro t
    rw [correctToken, h, correctTokenCore]
  calc (pySplit q).map (correctToken sc)
      = (pySplit q).map id := List.map_congr_left (fun t _ => this t)
    _ = pySplit q := List.map_id _

/-- Witness for the amended C4 at a concrete corrector and query. -/
theorem emptyVocab_correct_id_witness :
    correct (mkSpellCorrector [] 1) "hi there" =
      String.intercalate " " (pySplit "hi there") :=
  emptyVocab_correct_id (mkSpellCorrector [] 1) (by decide) "hi there"

/-! ## Personalization (`personalization.py`)

`UserProfiles` joins the labeled interactions with the catalog's cuisine
column (a pandas left merge), sums relevance per `(user, cuisine)` group
(pandas `groupby` drops rows whose join produced a missing cuisine), writes
the per-user dictionaries, and normalizes each user's scores by their total
(`sum(prefs.values()) or 1.0`).  Relevance floats are modelled as exact
rationals; group keys are kept in first-appearance order (pandas sorts its
group keys, but no property below depends on that order).
-/

/-- Python `str.lower()`, character-wise. -/
def strLower (s : String) : String :=
  ⟨s.data.map Char.toLower⟩

/-- One labeled interaction row (`user_id`, `item_id`, `relevance`). -/
structure Interaction where
  user_id : String
  item_id : Int
  relevance : ℚ
deriving DecidableEq

/-- One catalog row with the fields read by the components under proof. -/
structure OntologyAttrs where
  dietary : List String
  is_vegan_friendly : Bool
  category : Option String
deriving DecidableEq

structure CatalogItem where
  item_id : Int
  text : String
  cuisine : String
  price_range : String
  rating : ℚ
  popularity : ℚ
  delivery_time_minutes : ℚ
  is_vegan_friendly : Bool
  ontology_attrs : Option OntologyAttrs
deriving DecidableEq

/-- The pandas left merge `interactions.merge(catalog[["item_id","cuisine"]],
how="left", on="item_id")`: each interaction paired with every matching
catalog row's cuisine, or with a missing cuisine when nothing matches. -/
def mergedRows (interactions : List Interaction) (catalog : List CatalogItem) :
    List (String × Option String × ℚ) :=
  interactions.flatMap fun r =>
    match catalog.filter (fun c => c.item_id == r.item_id) with
    | [] => [(r.user_id, none, r.relevance)]
    | ms => ms.map fun c => (r.user_id, some c.cuisine, r.relevance)

/-- Add `v` into the group keyed `key` of an association list (creating the
group at the end on first appearance). -/
def addToGroup (acc : List ((String × String) × ℚ)) (key : String × String)
    (v : ℚ) : List ((String × String) × ℚ) :=
  if acc.any (fun p => p.1 == key) then
    acc.map fun p => if p.1 == key then (p.1, p.2 + v) else p
  else acc ++ [(key, v)]

/-- `merged.groupby(["user_id", "cuisine"])["relevance"].sum()`; rows whose
cuisine is missing (NaN join key) are dropped, as pandas does. -/
def groupedScores (interactions : List Interaction) (catalog : List CatalogItem) :
    List ((String × String) × ℚ) :=
  (mergedRows interactions catalog).foldl
    (fun acc row =>
      match row.2.1 with
      | none => acc
      | some cu => addToGroup acc (row.1, cu) row.2.2)
    []

/-- Assignment `d[k] = v` on an association list. -/
def setAssoc (l : List (String × ℚ)) (k : String) (v : ℚ) : List (String × ℚ) :=
  if l.any (fun p => p.1 == k) then
    l.map fun p => if p.1 == k then (k, v) else p
  else l ++ [(k, v)]

/-- `profiles.setdefault(user, {})[cuisine] = v`. -/
def setPref (prof : List (String × List (String × ℚ))) (user cuisine : String)
    (v : ℚ) : List (String × List (String × ℚ)) :=
  if prof.any (fun p => p.1 == user) then
    prof.map fun p => if p.1 == user then (p.1, setAssoc p.2 cuisine v) else p
  else prof ++ [(user, [(cuisine, v)])]

/-- The profile dictionaries before per-user normalization: for each grouped
`(user, cuisine)` score, `profiles[user][str(cuisine).lower()] = relevance`. -/
def rawProfiles (interactions : List Interaction) (catalog : List CatalogItem) :
    List (String × List (String × ℚ)) :=
  (groupedScores interactions catalog).foldl
    (fun prof g => setPref prof g.1.1 (strLower g.1.2) g.2)
    []

/-- Per-user normalization: `total = sum(prefs.values()) or 1.0`, then divide
every score by `total`. -/
def normalizePrefs (prefs : List (String × ℚ)) : List (String × ℚ) :=
  let total := (prefs.map fun p => p.2).sum
  let denom := if total = 0 then 1 else total
  prefs.map fun p => (p.1, p.2 / denom)

structure UserProfiles where
  profiles : List (String × List (String × ℚ))
deriving DecidableEq

/-- The `UserProfiles` constructor. -/
def mkUserProfiles (interactions : List Interaction) (catalog : List CatalogItem) :
    UserProfiles :=
  ⟨(rawProfiles interactions catalog).map fun p => (p.1, normalizePrefs p.2)⟩

/-- `UserProfiles.score(user_id, cuisine)`:
`self.profiles.get(user_id, {}).get(str(cuisine).lower(), 0.0)`. -/
def UserProfiles.score (up : UserProfiles) (user_id cuisine : String) : ℚ :=
  match up.profiles.find? (fun p => p.1 == user_id) with
  | none => 0
  | some p =>
    match p.2.find? (fun q => q.1 == strLower cuisine) with
    | none => 0
    | some q => q.2

theorem listSum_div (l : List ℚ) (T : ℚ) :
    (l.map fun x => x / T).sum = l.sum / T := by
  induction l with
  | nil => simp
  | cons a t ih => simp [ih, add_div]

theorem find?_map_normalize (l : List (String × List (String × ℚ))) (u : String) :
    ((l.map fun p => (p.1, normalizePrefs p.2)).find? fun p => p.1 == u) =
      (l.find? fun p => p.1 == u).map fun p => (p.1, normalizePrefs p.2) := by
  induction l with
  | nil => rfl
  | cons a t ih =>
    by_cases h : (a.1 == u) = true
    · simp [List.find?, h]
    · simp only [Bool.not_eq_true] at h
      simp [List.find?, h, ih]

theorem normalizePrefs_sum_one (prefs : List (String × ℚ))
    (h : (prefs.map fun p => p.2).sum ≠ 0) :
    ((normalizePrefs prefs).map fun p => p.2).sum = 1 := by
  rw [normalizePrefs]
  simp only [if_neg h, List.map_map]
  have : ((prefs.map fun p => p.2).map
      fun x => x / (prefs.map fun p => p.2).sum).sum =
      (prefs.map fun p => p.2).sum / (prefs.map fun p => p.2).sum :=
    listSum_div _ _
  rw [List.map_map] at this
  rw [show ((fun x => x / (prefs.map fun p => p.2).sum) ∘ fun p : String × ℚ => p.2)
      = fun p : String × ℚ => p.2 / (prefs.map fun q => q.2).sum from rfl] at this
  rw [show ((fun p : String × ℚ => p.2) ∘
      fun p : String × ℚ => (p.1, p.2 / (prefs.map fun q => q.2).sum))
      = fun p : String × ℚ => p.2 / (prefs.map fun q => q.2).sum from rfl]
  rw [this, div_self h]

/-- C6: a user whose aggregated (pre-normalization) cuisine relevances have a
nonzero total ends up, after construction, with normalized scores summing to
exactly 1; and `score` returns 0 for any user absent from the profiles and for
any cuisine absent from the user's profile. -/
theorem userProfiles_spec (interactions : List Interaction)
    (catalog : List CatalogItem) (u : String)
    (e : String × List (String × ℚ))
    (hfind : (rawProfiles interactions catalog).find? (fun p => p.1 == u) = some e)
    (hnz : (e.2.map fun q => q.2).sum ≠ 0) :
    (∃ prefs,
      ((mkUserProfiles interactions catalog).profiles.find? fun p => p.1 == u) =
          some (e.1, prefs) ∧
        (prefs.map fun q => q.2).sum = 1) ∧
    (∀ u' c' : String,
      ((mkUserProfiles interactions catalog).profiles.find? fun p => p.1 == u') =
          none →
        (mkUserProfiles interactions catalog).score u' c' = 0) ∧
    (∀ (u' c' : String) (e' : String × List (String × ℚ)),
      ((mkUserProfiles interactions catalog).profiles.find? fun p => p.1 == u') =
          some e' →
        (e'.2.find? fun q => q.1 == strLower c') = none →
        (mkUserProfiles interactions catalog).score u' c' = 0) := by
  refine ⟨?_, ?_, ?_⟩
  · refine ⟨normalizePrefs e.2, ?_, normalizePrefs_sum_one e.2 hnz⟩
    rw [mkUserProfiles]
    rw [find?_map_normalize, hfind]
    rfl
  · intro u' c' hnone
    rw [UserProfiles.score, hnone]
  · intro u' c' e' hsome hcnone
    simp only [UserProfiles.score, hsome, hcnone]

/-- Witness for C6: two users, one with interactions in two cuisines. -/
theorem userProfiles_spec_witness :
    (∃ prefs,
      ((mkUserProfiles
            [⟨"u1", 1, 2⟩, ⟨"u1", 2, 1⟩, ⟨"u2", 1, 1⟩]
            [⟨1, "thai cafe", "Thai", "cheap", 4, 10, 30, false, none⟩,
             ⟨2, "sushi bar", "Sushi", "medium", 5, 20, 20, true, none⟩]).profiles.find?
          fun p => p.1 == "u1") = some ("u1", prefs) ∧
        (prefs.map fun q => q.2).sum = 1) ∧
    (∀ u' c' : String,
      ((mkUserProfiles
            [⟨"u1", 1, 2⟩, ⟨"u1", 2, 1⟩, ⟨"u2", 1, 1⟩]
            [⟨1, "thai cafe", "Thai", "cheap", 4, 10, 30, false, none⟩,
             ⟨2, "sushi bar", "Sushi", "medium", 5, 20, 20, true, none⟩]).profiles.find?
          fun p => p.1 == u') = none →
        (mkUserProfiles
            [⟨"u1", 1, 2⟩, ⟨"u1", 2, 1⟩, ⟨"u2", 1, 1⟩]
            [⟨1, "thai cafe", "Thai", "cheap", 4, 10, 30, false, none⟩,
             ⟨2, "sushi bar", "Sushi", "medium", 5, 20, 20, true, none⟩]).score u' c' = 0) ∧
    (∀ (u' c' : String) (e' : String × List (String × ℚ)),
      ((mkUserProfiles
            [⟨"u1", 1, 2⟩, ⟨"u1", 2, 1⟩, ⟨"u2", 1, 1⟩]
            [⟨1, "thai cafe", "Thai", "cheap", 4, 10, 30, false, none⟩,
             ⟨2, "sushi bar", "Sushi", "medium", 5, 20, 20, true, none⟩]).profiles.find?
          fun p => p.1 == u') = some e' →
        (e'.2.find? fun q => q.1 == strLower c') = none →
        (mkUserProfiles
            [⟨"u1", 1, 2⟩, ⟨"u1", 2, 1⟩, ⟨"u2", 1, 1⟩]
            [⟨1, "thai cafe", "Thai", "cheap", 4, 10, 30, false, none⟩,
             ⟨2, "sushi bar", "Sushi", "medium", 5, 20, 20, true, none⟩]).score u' c' = 0) :=
  userProfiles_spec
    [⟨"u1", 1, 2⟩, ⟨"u1", 2, 1⟩, ⟨"u2", 1, 1⟩]
    [⟨1, "thai cafe", "Thai", "cheap", 4, 10, 30, false, none⟩,
     ⟨2, "sushi bar", "Sushi", "medium", 5, 20, 20, true, none⟩]
    "u1" ("u1", [("thai", 2), ("sushi", 1)]) (by decide) (by norm_num)

/-! ## Hybrid retrieval (`retrieval.py`, `HybridRetriever`)

`HybridRetriever` consumes its lexical and semantic collaborators only
through their `query`/`score_pair` interfaces; they are therefore modelled
as function-valued fields (the semantic retriever wraps an external
sentence-transformers model, and the TF-IDF lexical retriever is analysed
separately below).  Scores here are exact rationals.
-/

/-- The `ScoredItem` dataclass, parametrized by the numeric score model. -/
structure ScoredItem (α : Type) where
  item_id : Int
  score : α
  source : String
deriving DecidableEq

/-- The call interface of `LexicalRetriever` as consumed by `HybridRetriever`. -/
structure LexicalRetrieverQ where
  query : String → Nat → List (ScoredItem ℚ)
  score_pair : String → Int → ℚ

/-- The call interface of `SemanticRetriever` as consumed by `HybridRetriever`. -/
structure SemanticRetrieverQ where
  query : String → Nat → List (ScoredItem ℚ)
  score_pair : String → Int → ℚ

structure HybridRetriever where
  lexical : LexicalRetrieverQ
  semantic : Option SemanticRetrieverQ
  semantic_weight : ℚ

/-- `scores.setdefault(item_id, {})["lexical"] = score` over the merged-score
dict, modelled as an association list in insertion order with one optional
slot per source. -/
def upsertLex (scores : List (Int × Option ℚ × Option ℚ)) (id : Int) (s : ℚ) :
    List (Int × Option ℚ × Option ℚ) :=
  if scores.any (fun p => p.1 == id) then
    scores.map fun p => if p.1 == id then (p.1, some s, p.2.2) else p
  else scores ++ [(id, some s, none)]

/-- `scores.setdefault(item_id, {})["semantic"] = score`. -/
def upsertSem (scores : List (Int × Option ℚ × Option ℚ)) (id : Int) (s : ℚ) :
    List (Int × Option ℚ × Option ℚ) :=
  if scores.any (fun p => p.1 == id) then
    scores.map fun p => if p.1 == id then (p.1, p.2.1, some s) else p
  else scores ++ [(id, none, some s)]

/-- The two merge loops of `HybridRetriever.retrieve`. -/
def mergeScores (lexical_results semantic_results : List (ScoredItem ℚ)) :
    List (Int × Option ℚ × Option ℚ) :=
  let afterLex := lexical_results.foldl
    (fun acc it => upsertLex acc it.item_id it.score) []
  semantic_results.foldl (fun acc it => upsertSem acc it.item_id it.score) afterLex

/-- The inner `normalize` helper: min-max normalization with the `1e-6`
division guard; an empty dict maps to an empty dict. -/
def minmaxNormalize : List (Int × ℚ) → List (Int × ℚ)
  | [] => []
  | q :: qs =>
    let mn := (qs.map fun p => p.2).foldl min q.2
    let mx := (qs.map fun p => p.2).foldl max q.2
    let denom := mx - mn + 1 / 1000000
    (q :: qs).map fun p => (p.1, (p.2 - mn) / denom)

/-- Python `d.get(item_id, 0.0)` on an association list. -/
def getScore (l : List (Int × ℚ)) (id : Int) : ℚ :=
  match l.find? (fun p => p.1 == id) with
  | none => 0
  | some p => p.2

/-- Descending-score comparison used by `combined.sort(key=..., reverse=True)`
(the Python sort is stable, as is `insertionSort`). -/
def scoreGE (a b : ScoredItem ℚ) : Prop :=
  b.score ≤ a.score

instance : DecidableRel scoreGE := fun a b =>
  inferInstanceAs (Decidable (b.score ≤ a.score))

instance : IsTotal (ScoredItem ℚ) scoreGE :=
  ⟨fun a b => le_total b.score a.score⟩

instance : IsTrans (ScoredItem ℚ) scoreGE :=
  ⟨fun _ _ _ h1 h2 => le_trans h2 h1⟩

/-- `HybridRetriever.retrieve(text, top_k)`. -/
def HybridRetriever.retrieve (hr : HybridRetriever) (text : String) (top_k : Nat) :
    List (ScoredItem ℚ) :=
  let lexical_results := hr.lexical.query text (top_k * 2)
  let semantic_results :=
    match hr.semantic with
    | some s => s.query text (top_k * 2)
    | none => []
  let scores := mergeScores lexical_results semantic_results
  let normalized_scores := minmaxNormalize (scores.map fun p => (p.1, p.2.1.getD 0))
  let normalized_semantic := minmaxNormalize (scores.map fun p => (p.1, p.2.2.getD 0))
  let combined := scores.map fun p =>
    ScoredItem.mk p.1
      (getScore normalized_scores p.1 +
        hr.semantic_weight * getScore normalized_semantic p.1)
      "hybrid"
  (combined.insertionSort scoreGE).take top_k

/-- `HybridRetriever.pair_scores(text, item_id)`. -/
def HybridRetriever.pair_scores (hr : HybridRetriever) (text : String)
    (item_id : Int) : ℚ × ℚ :=
  (hr.lexical.score_pair text item_id,
    match hr.semantic with
    | none => 0
    | some s => s.score_pair text item_id)

theorem foldlMin_le_init (a : ℚ) (l : List ℚ) : l.foldl min a ≤ a := by
  induction l generalizing a with
  | nil => exact le_rfl
  | cons x t ih => exact le_trans (ih (min a x)) (min_le_left a x)

theorem foldlMin_le_mem (a : ℚ) (l : List ℚ) : ∀ x ∈ l, l.foldl min a ≤ x := by
  induction l generalizing a with
  | nil => intro x hx; cases hx
  | cons y t ih =>
    intro x hx
    rcases List.mem_cons.mp hx with rfl | h
    · exact le_trans (foldlMin_le_init (min a x) t) (min_le_right a x)
    · exact ih (min a y) x h

theorem le_foldlMax_init (a : ℚ) (l : List ℚ) : a ≤ l.foldl max a := by
  induction l generalizing a with
  | nil => exact le_rfl
  | cons x t ih => exact le_trans (le_max_left a x) (ih (max a x))

theorem le_foldlMax_mem (a : ℚ) (l : List ℚ) : ∀ x ∈ l, x ≤ l.foldl max a := by
  induction l generalizing a with
  | nil => intro x hx; cases hx
  | cons y t ih =>
    intro x hx
    rcases List.mem_cons.mp hx with rfl | h
    · exact le_trans (le_max_right a x) (le_foldlMax_init (max a x) t)
    · exact ih (max a y) x h

/-- Every value produced by the min-max normalization lies in `[0, 1]`. -/
theorem minmaxNormalize_bounds (l : List (Int × ℚ)) :
    ∀ p ∈ minmaxNormalize l, 0 ≤ p.2 ∧ p.2 ≤ 1 := by
  cases l with
  | nil => intro p hp; cases hp
  | cons q qs =>
    intro p hp
    rw [minmaxNormalize] at hp
    simp only [List.mem_map] at hp
    obtain ⟨x, hx, hpx⟩ := hp
    set mn := (qs.map fun p => p.2).foldl min q.2 with hmn
    set mx := (qs.map fun p => p.2).foldl max q.2 with hmx
    have hxmn : mn ≤ x.2 := by
      rcases List.mem_cons.mp hx with h | h
      · rw [h]; exact foldlMin_le_init _ _
      · exact foldlMin_le_mem _ _ x.2 (List.mem_map.mpr ⟨x, h, rfl⟩)
    have hxmx : x.2 ≤ mx := by
      rcases List.mem_cons.mp hx with h | h
      · rw [h]; exact le_foldlMax_init _ _
      · exact le_foldlMax_mem _ _ x.2 (List.mem_map.mpr ⟨x, h, rfl⟩)
    have hmnmx : mn ≤ mx := le_trans (foldlMin_le_init _ _) (le_foldlMax_init _ _)
    have hdenom : (0 : ℚ) < mx - mn + 1 / 1000000 := by
      have : (0 : ℚ) < 1 / 1000000 := by norm_num
      linarith
    rw [← hpx]
    constructor
    · exact div_nonneg (by linarith) (le_of_lt hdenom)
    · rw [div_le_one hdenom]
      linarith

theorem getScore_bounds (l : List (Int × ℚ))
    (h : ∀ p ∈ l, 0 ≤ p.2 ∧ p.2 ≤ 1) (id : Int) :
    0 ≤ getScore l id ∧ getScore l id ≤ 1 := by
  rw [getScore]
  cases hf : l.find? (fun p => p.1 == id) with
  | none => exact ⟨le_rfl, by norm_num⟩
  | some p => exact h p (List.mem_of_find?_eq_some hf)

/-- Bounds for the fused scores of the merged candidate dict. -/
theorem hybridCombined_mem_bounds (w : ℚ) (hw : 0 ≤ w)
    (scores : List (Int × Option ℚ × Option ℚ)) (it : ScoredItem ℚ)
    (hit : it ∈ scores.map fun p =>
      ScoredItem.mk p.1
        (getScore (minmaxNormalize (scores.map fun p => (p.1, p.2.1.getD 0))) p.1 +
          w * getScore (minmaxNormalize (scores.map fun p => (p.1, p.2.2.getD 0))) p.1)
        "hybrid") :
    0 ≤ it.score ∧ it.score ≤ 1 + w := by
  obtain ⟨p, hp, hpit⟩ := List.mem_map.mp hit
  have hlexb := getScore_bounds
    (minmaxNormalize (scores.map fun p => (p.1, p.2.1.getD 0)))
    (minmaxNormalize_bounds _) p.1
  have hsemb := getScore_bounds
    (minmaxNormalize (scores.map fun p => (p.1, p.2.2.getD 0)))
    (minmaxNormalize_bounds _) p.1
  rw [← hpit]
  constructor
  · have := mul_nonneg hw hsemb.1
    simp only
    linarith [hlexb.1]
  · have := mul_le_mul_of_nonneg_left hsemb.2 hw
    simp only
    linarith [hlexb.2]

/-- C2: every score returned by `HybridRetriever.retrieve` lies in
`[0, 1 + semantic_weight]`, and the returned scores are non-increasing. -/
theorem hybridRetrieve_bounds_sorted (hr : HybridRetriever) (text : String)
    (top_k : Nat) (_hk : 1 ≤ top_k) (hw : 0 ≤ hr.semantic_weight) :
    (∀ it ∈ hr.retrieve text top_k,
      0 ≤ it.score ∧ it.score ≤ 1 + hr.semantic_weight) ∧
    (hr.retrieve text top_k).Pairwise scoreGE := by
  constructor
  · intro it hit
    simp only [HybridRetriever.retrieve] at hit
    exact hybridCombined_mem_bounds hr.semantic_weight hw _ it
      ((List.mem_insertionSort scoreGE).mp (List.mem_of_mem_take hit))
  · simp only [HybridRetriever.retrieve]
    exact List.Pairwise.sublist (List.take_sublist _ _)
      (List.sorted_insertionSort scoreGE _)

/-- Witness for C2: a two-candidate lexical-only configuration. -/
theorem hybridRetrieve_bounds_sorted_witness :
    (∀ it ∈ (HybridRetriever.mk
        ⟨fun _ _ => [⟨1, 3/2, "lexical"⟩, ⟨2, 1/2, "lexical"⟩], fun _ _ => 0⟩
        none (1/2)).retrieve "q" 2,
      0 ≤ it.score ∧
        it.score ≤ 1 + (HybridRetriever.mk
          ⟨fun _ _ => [⟨1, 3/2, "lexical"⟩, ⟨2, 1/2, "lexical"⟩], fun _ _ => 0⟩
          none (1/2)).semantic_weight) ∧
    ((HybridRetriever.mk
        ⟨fun _ _ => [⟨1, 3/2, "lexical"⟩, ⟨2, 1/2, "lexical"⟩], fun _ _ => 0⟩
        none (1/2)).retrieve "q" 2).Pairwise scoreGE :=
  hybridRetrieve_bounds_sorted
    (HybridRetriever.mk
      ⟨fun _ _ => [⟨1, 3/2, "lexical"⟩, ⟨2, 1/2, "lexical"⟩], fun _ _ => 0⟩
      none (1/2))
    "q" 2 (by norm_num) (by norm_num)

/-! ## Feature building (`ranking.py`, `build_feature_rows`)

The builder walks the labeled rows, looks each item up in the catalog
(`catalog_by_id.loc`, which raises on a missing id — modelled by `Option`),
asks the hybrid retriever for pair scores, and assembles the feature dict in
the source's insertion order.  The extended personalization signals
(`price_affinity`, `item_bias`) and the keyword-lexicon extractors
(`extract_dietary_tags`, `extract_price_range`) are external collaborators
(spec §1/§4.3) and enter as function-valued parameters.
-/

/-- `INTENT_MAP.get(intent, 0)`. -/
def INTENT_MAP (intent : String) : Int :=
  if intent = "product_search" then 0
  else if intent = "faq_search" then 1
  else if intent = "local_search" then 2
  else 0

/-- `price_bucket(value)`: `PRICE_BUCKET.get(str(value).lower(), 1)`. -/
def price_bucket (value : String) : Int :=
  let v := strLower value
  if v = "cheap" then 0
  else if v = "medium" then 1
  else if v = "expensive" then 2
  else 1

/-- `extract_cuisine_entities(query, cuisines)` from `query_understanding.py`:
the lexicon entries that occur as whole tokens of the normalized query. -/
def extract_cuisine_entities (query : String) (cuisines : List String) :
    List String :=
  let toks := pySplit (normalize_query query)
  cuisines.filter fun c => toks.contains c

/-- One row of the labeled interaction table consumed by the builder. -/
structure LabeledRow where
  query_id : String
  query : String
  user_id : String
  item_id : Int
  relevance : ℚ
deriving DecidableEq

/-- The `FeatureRow` dataclass; the feature dict keeps insertion order. -/
structure FeatureRow where
  query_id : String
  query : String
  user_id : String
  item_id : Int
  features : List (String × ℚ)
  label : ℚ
deriving DecidableEq

/-- The personalization interface consumed by the builder (`score` is
`UserProfiles.score`; the price-affinity and item-bias aggregates are
extended signals the spec leaves to the implementer, §4.3). -/
structure UserProfilesExt where
  score : String → String → ℚ
  price_affinity : String → Int → ℚ
  item_bias : String → Int → ℚ

/-- `catalog.set_index("item_id").loc[item_id]` (raises when absent). -/
def catalogFind (catalog : List CatalogItem) (id : Int) : Option CatalogItem :=
  catalog.find? fun c => c.item_id == id

/-- The loop body of `build_feature_rows` for a single labeled row. -/
def buildFeatureRow (catalog : List CatalogItem) (retriever : HybridRetriever)
    (user_profiles : UserProfilesExt) (intent_predictor : String → String)
    (cuisines : List String) (extract_dietary_tags : String → List String)
    (extract_price_range : String → Option String) (row : LabeledRow) :
    Option FeatureRow :=
  match catalogFind catalog row.item_id with
  | none => none
  | some item =>
    let ps := retriever.pair_scores row.query row.item_id
    let lexical_score := ps.1
    let semantic_score :=
      match retriever.semantic with
      | none => lexical_score  -- fallback to lexical when semantic is disabled
      | some _ => ps.2
    let user_pref := user_profiles.score row.user_id item.cuisine
    let price_affinity :=
      user_profiles.price_affinity row.user_id (price_bucket item.price_range)
    let bias := user_profiles.item_bias row.user_id row.item_id
    let diet_tags := extract_dietary_tags row.query
    let price_hint := extract_price_range row.query
    let intent := intent_predictor row.query
    let intent_code := INTENT_MAP intent
    let cuisines_in_query := extract_cuisine_entities row.query cuisines
    let cuisine_match : ℚ :=
      if cuisines_in_query.contains (strLower item.cuisine) then 1 else 0
    let dietary_attr : Bool :=
      match item.ontology_attrs with
      | none => false
      | some o =>
        o.is_vegan_friendly ||
          (if diet_tags.isEmpty then false
           else o.dietary.any fun d => diet_tags.contains d)
    let category_attr : Option String :=
      match item.ontology_attrs with
      | none => none
      | some o => o.category
    let ontology_dietary_match : ℚ :=
      if dietary_attr || (!diet_tags.isEmpty && item.is_vegan_friendly) then 1 else 0
    let ontology_category_match : ℚ :=
      match category_attr with
      | some cat =>
        if cat ≠ "" ∧ cuisines_in_query.contains (strLower cat) then 1 else 0
      | none => 0
    let price_hint_match : ℚ :=
      match price_hint with
      | some ph =>
        if ph ≠ "" ∧ strLower ph = strLower item.price_range then 1 else 0
      | none => 0
    some
      { query_id := row.query_id
        query := row.query
        user_id := row.user_id
        item_id := row.item_id
        features :=
          [("lexical_score", lexical_score),
           ("semantic_score", semantic_score),
           ("rating", item.rating),
           ("popularity", item.popularity),
           ("is_vegan_friendly", if item.is_vegan_friendly then 1 else 0),
           ("delivery_time_minutes", item.delivery_time_minutes),
           ("price_bucket", (price_bucket item.price_range : ℚ)),
           ("user_pref_score", user_pref),
           ("price_affinity", price_affinity),
           ("user_item_bias", bias),
           ("ontology_dietary_match", ontology_dietary_match),
           ("ontology_category_match", ontology_category_match),
           ("price_hint_match", price_hint_match),
           ("cuisine_match", cuisine_match),
           ("intent_code", (intent_code : ℚ))]
        label := row.relevance }

/-- `build_feature_rows`: the loop over the labeled rows (a missing catalog
item aborts the whole call, as `DataFrame.loc` raises). -/
def build_feature_rows (labeled_data : List LabeledRow)
    (catalog : List CatalogItem) (retriever : HybridRetriever)
    (user_profiles : UserProfilesExt) (intent_predictor : String → String)
    (cuisines : List String) (extract_dietary_tags : String → List String)
    (extract_price_range : String → Option String) : Option (List FeatureRow) :=
  match labeled_data with
  | [] => some []
  | r :: rs =>
    match buildFeatureRow catalog retriever user_profiles intent_predictor
        cuisines extract_dietary_tags extract_price_range r,
      build_feature_rows rs catalog retriever user_profiles intent_predictor
        cuisines extract_dietary_tags extract_price_range with
    | some fr, some frs => some (fr :: frs)
    | _, _ => none

theorem buildFeatureRow_semantic_none (catalog : List CatalogItem)
    (retriever : HybridRetriever) (user_profiles : UserProfilesExt)
    (intent_predictor : String → String) (cuisines : List String)
    (extract_dietary_tags : String → List String)
    (extract_price_range : String → Option String) (row : LabeledRow)
    (fr : FeatureRow) (hsem : retriever.semantic = none)
    (hb : buildFeatureRow catalog retriever user_profiles intent_predictor
      cuisines extract_dietary_tags extract_price_range row = some fr) :
    fr.query = row.query ∧ fr.item_id = row.item_id ∧
    (fr.features.find? fun p => p.1 == "semantic_score") =
      some ("semantic_score", retriever.lexical.score_pair row.query row.item_id) ∧
    (fr.features.find? fun p => p.1 == "lexical_score") =
      some ("lexical_score", retriever.lexical.score_pair row.query row.item_id) := by
  rw [buildFeatureRow] at hb
  cases hfind : catalogFind catalog row.item_id with
  | none => rw [hfind] at hb; cases hb
  | some item =>
    rw [hfind] at hb
    simp only [hsem, Option.some_inj] at hb
    rw [← hb]
    refine ⟨rfl, rfl, ?_, ?_⟩
    · simp [List.find?, HybridRetriever.pair_scores]
    · simp [List.find?, HybridRetriever.pair_scores]

/-- C1 amended: when no semantic retriever is configured, `pair_scores`
returns `(lexical_score, 0)`, but `build_feature_rows` then replaces the
semantic score by the lexical one, so every produced row carries
`features["semantic_score"] = features["lexical_score"] = lexical pair
score` (not the 0.0 fallback). -/
theorem featureRows_semantic_none_lexical_fallback
    (labeled_data : List LabeledRow) (catalog : List CatalogItem)
    (retriever : HybridRetriever) (user_profiles : UserProfilesExt)
    (intent_predictor : String → String) (cuisines : List String)
    (extract_dietary_tags : String → List String)
    (extract_price_range : String → Option String) (frs : List FeatureRow)
    (hsem : retriever.semantic = none)
    (hbuild : build_feature_rows labeled_data catalog retriever user_profiles
      intent_predictor cuisines extract_dietary_tags extract_price_range =
      some frs) :
    (∀ text iid, retriever.pair_scores text iid =
      (retriever.lexical.score_pair text iid, 0)) ∧
    ∀ fr ∈ frs,
      (fr.features.find? fun p => p.1 == "semantic_score") =
        some ("semantic_score", retriever.lexical.score_pair fr.query fr.item_id) ∧
      (fr.features.find? fun p => p.1 == "lexical_score") =
        some ("lexical_score", retriever.lexical.score_pair fr.query fr.item_id) := by
  constructor
  · intro text iid
    rw [HybridRetriever.pair_scores, hsem]
  · induction labeled_data generalizing frs with
    | nil =>
      rw [build_feature_rows, Option.some_inj] at hbuild
      rw [← hbuild]
      intro fr hfr
      cases hfr
    | cons r rs ih =>
      rw [build_feature_rows] at hbuild
      cases hone : buildFeatureRow catalog retriever user_profiles
          intent_predictor cuisines extract_dietary_tags extract_price_range r with
      | none => rw [hone] at hbuild; cases hbuild
      | some fr0 =>
        rw [hone] at hbuild
        cases hrest : build_feature_rows rs catalog retriever user_profiles
            intent_predictor cuisines extract_dietary_tags extract_price_range with
        | none => rw [hrest] at hbuild; cases hbuild
        | some frs0 =>
          rw [hrest, Option.some_inj] at hbuild
          rw [← hbuild]
          intro fr hfr
          rcases List.mem_cons.mp hfr with rfl | hfr
          · obtain ⟨hq, hi, hsemf, hlexf⟩ :=
              buildFeatureRow_semantic_none catalog retriever user_profiles
                intent_predictor cuisines extract_dietary_tags
                extract_price_range r fr hsem hone
            rw [hq, hi]
            exact ⟨hsemf, hlexf⟩
          · exact ih frs0 hrest fr hfr

/-- C1 counterexample input: with the semantic retriever disabled and a
lexical pair score of 7, the produced row's `semantic_score` feature is 7,
not the spec's 0.0 fallback. -/
theorem featureRows_semanticScore_counterexample :
    (HybridRetriever.mk ⟨fun _ _ => [], fun _ _ => 7⟩ none (1/2)).semantic = none ∧
    build_feature_rows
        [⟨"q1", "vegan sushi", "u1", 1, 2⟩]
        [⟨1, "vegan sushi bar", "japanese", "cheap", 4, 10, 30, true, none⟩]
        (HybridRetriever.mk ⟨fun _ _ => [], fun _ _ => 7⟩ none (1/2))
        ⟨fun _ _ => 0, fun _ _ => 0, fun _ _ => 0⟩
        (fun _ => "product_search") [] (fun _ => []) (fun _ => none) =
      some
        [{ query_id := "q1"
           query := "vegan sushi"
           user_id := "u1"
           item_id := 1
           features :=
             [("lexical_score", 7),
              ("semantic_score", 7),
              ("rating", 4),
              ("popularity", 10),
              ("is_vegan_friendly", 1),
              ("delivery_time_minutes", 30),
              ("price_bucket", 0),
              ("user_pref_score", 0),
              ("price_affinity", 0),
              ("user_item_bias", 0),
              ("ontology_dietary_match", 0),
              ("ontology_category_match", 0),
              ("price_hint_match", 0),
              ("cuisine_match", 0),
              ("intent_code", 0)]
           label := 2 }] ∧
    (7 : ℚ) ≠ 0 := by
  refine ⟨rfl, by decide, by norm_num⟩

/-- Witness for the amended C1 at the counterexample's concrete data. -/
theorem featureRows_semantic_none_lexical_fallback_witness :
    (∀ text iid,
      (HybridRetriever.mk ⟨fun _ _ => [], fun _ _ => 7⟩ none (1/2)).pair_scores
          text iid =
        ((HybridRetriever.mk ⟨fun _ _ => [], fun _ _ => 7⟩ none
            (1/2)).lexical.score_pair text iid, 0)) ∧
    ∀ fr ∈ [({ query_id := "q1"
               query := "vegan sushi"
               user_id := "u1"
               item_id := 1
               features :=
                 [("lexical_score", 7),
                  ("semantic_score", 7),
                  ("rating", 4),
                  ("popularity", 10),
                  ("is_vegan_friendly", 1),
                  ("delivery_time_minutes", 30),
                  ("price_bucket", 0),
                  ("user_pref_score", 0),
                  ("price_affinity", 0),
                  ("user_item_bias", 0),
                  ("ontology_dietary_match", 0),
                  ("ontology_category_match", 0),
                  ("price_hint_match", 0),
                  ("cuisine_match", 0),
                  ("intent_code", 0)]
               label := 2 } : FeatureRow)],
      (fr.features.find? fun p => p.1 == "semantic_score") =
        some ("semantic_score",
          (HybridRetriever.mk ⟨fun _ _ => [], fun _ _ => 7⟩ none
            (1/2)).lexical.score_pair fr.query fr.item_id) ∧
      (fr.features.find? fun p => p.1 == "lexical_score") =
        some ("lexical_score",
          (HybridRetriever.mk ⟨fun _ _ => [], fun _ _ => 7⟩ none
            (1/2)).lexical.score_pair fr.query fr.item_id) :=
  featureRows_semantic_none_lexical_fallback
    [⟨"q1", "vegan sushi", "u1", 1, 2⟩]
    [⟨1, "vegan sushi bar", "japanese", "cheap", 4, 10, 30, true, none⟩]
    (HybridRetriever.mk ⟨fun _ _ => [], fun _ _ => 7⟩ none (1/2))
    ⟨fun _ _ => 0, fun _ _ => 0, fun _ _ => 0⟩
    (fun _ => "product_search") [] (fun _ => []) (fun _ => none) _
    rfl (by decide)

/-! ## Evaluation (`evaluation.py`)

`dcg_at_k` sums `(2 ** rel - 1) / log2(i + 2)` over the first `k` relevances
(the numpy elementwise computation, written here as a fold with the running
position); `ndcg_at_k` divides by the DCG of the descending-sorted
relevances with a zero guard; `mrr_at_k` finds the 1-indexed rank of the
first positive relevance; `evaluate_predictions` groups `(pred, label)`
pairs by query id, sorts each group by prediction descending (Python's
stable sort) and averages the per-group metrics, with 0.0 means for an
empty group list.  Relevance/prediction floats are modelled as reals.
-/

/-- The gain `2 ** rel - 1`. -/
noncomputable def gain (r : ℝ) : ℝ :=
  (2 : ℝ) ^ r - 1

/-- The discount `log2(i + 2)` at 0-indexed position `i`. -/
noncomputable def disc (i : ℕ) : ℝ :=
  Real.logb 2 (i + 2)

/-- `np.sum(gains / discounts)` written positionally. -/
noncomputable def dcgAux : ℕ → List ℝ → ℝ
  | _, [] => 0
  | i, r :: rs => gain r / disc i + dcgAux (i + 1) rs

/-- `dcg_at_k(rels, k)`. -/
noncomputable def dcg_at_k (rels : List ℝ) (k : ℕ) : ℝ :=
  dcgAux 0 (rels.take k)

/-- `sorted(rels, reverse=True)`. -/
noncomputable def sorted_desc (rels : List ℝ) : List ℝ :=
  rels.insertionSort (· ≥ ·)

/-- `ndcg_at_k(rels, k)` with the zero-ideal guard. -/
noncomputable def ndcg_at_k (rels : List ℝ) (k : ℕ) : ℝ :=
  if dcg_at_k (sorted_desc rels) k = 0 then 0
  else dcg_at_k rels k / dcg_at_k (sorted_desc rels) k

/-- The 1-indexed scan of `mrr_at_k`. -/
noncomputable def mrrAux : ℕ → List ℝ → ℝ
  | _, [] => 0
  | i, r :: rs => if r > 0 then 1 / (i : ℝ) else mrrAux (i + 1) rs

/-- `mrr_at_k(rels, k)`. -/
noncomputable def mrr_at_k (rels : List ℝ) (k : ℕ) : ℝ :=
  mrrAux 1 (rels.take k)

/-- `per_query.setdefault(query_id, []).append(pair)`. -/
def addPair (acc : List (String × List (ℝ × ℝ))) (qid : String) (pr : ℝ × ℝ) :
    List (String × List (ℝ × ℝ)) :=
  if acc.any (fun g => g.1 == qid) then
    acc.map fun g => if g.1 == qid then (g.1, g.2 ++ [pr]) else g
  else acc ++ [(qid, [pr])]

/-- `evaluate_predictions(rows, preds, k) -> (mean_ndcg, mean_mrr)`. -/
noncomputable def evaluate_predictions (rows : List FeatureRow)
    (preds : List ℝ) (k : ℕ) : ℝ × ℝ :=
  let per_query := (rows.zip preds).foldl
    (fun acc rp => addPair acc rp.1.query_id (rp.2, (rp.1.label : ℝ))) []
  let metrics := per_query.map fun g =>
    let sorted := g.2.insertionSort fun a b => b.1 ≤ a.1
    let labels_sorted := sorted.map fun p => p.2
    (ndcg_at_k labels_sorted k, mrr_at_k labels_sorted k)
  (match metrics with
    | [] => 0
    | _ => (metrics.map fun m => m.1).sum / (metrics.length : ℝ),
   match metrics with
    | [] => 0
    | _ => (metrics.map fun m => m.2).sum / (metrics.length : ℝ))

/-- C10: on an empty row list (hence empty zipped predictions) the evaluator
returns `{mean_ndcg: 0.0, mean_mrr: 0.0}` without failing. -/
theorem evaluate_predictions_empty (preds : List ℝ) (k : ℕ) :
    evaluate_predictions [] preds k = (0, 0) :=
  rfl

theorem gain_zero : gain 0 = 0 := by
  rw [gain, Real.rpow_zero]
  norm_num

theorem gain_two : gain 2 = 3 := by
  rw [gain, show (2 : ℝ) = ((2 : ℕ) : ℝ) by norm_num, Real.rpow_natCast]
  norm_num

theorem gain_three : gain 3 = 7 := by
  rw [gain, show (3 : ℝ) = ((3 : ℕ) : ℝ) by norm_num, Real.rpow_natCast]
  norm_num

theorem disc_pos (i : ℕ) : 0 < disc i := by
  rw [disc]
  apply Real.logb_pos (by norm_num)
  have : (0 : ℝ) ≤ (i : ℝ) := Nat.cast_nonneg i
  linarith

theorem disc_zero : disc 0 = 1 := by
  rw [disc]
  norm_num

/-- C5: `ndcg_at_k` is the zero-guarded ratio of DCG to ideal DCG, is `1.0`
on the already-descending `[3,2,0]` at `k = 3`, and is `0.0` on all-zero
relevances for every `k`. -/
theorem ndcg_at_k_spec :
    (∀ (rels : List ℝ) (k : ℕ),
      ndcg_at_k rels k =
        if dcg_at_k (sorted_desc rels) k = 0 then 0
        else dcg_at_k rels k / dcg_at_k (sorted_desc rels) k) ∧
    ndcg_at_k [3, 2, 0] 3 = 1 ∧
    (∀ k : ℕ, ndcg_at_k [0, 0, 0] k = 0) := by
  refine ⟨fun rels k => rfl, ?_, ?_⟩
  · have hsort : sorted_desc [3, 2, 0] = ([3, 2, 0] : List ℝ) := by
      rw [sorted_desc]
      norm_num [List.insertionSort, List.orderedInsert]
    have hval : dcg_at_k ([3, 2, 0] : List ℝ) 3 =
        gain 3 / disc 0 + (gain 2 / disc 1 + (gain 0 / disc 2 + 0)) := by
      rw [dcg_at_k]
      norm_num [dcgAux]
    have hpos : 0 < dcg_at_k ([3, 2, 0] : List ℝ) 3 := by
      rw [hval, gain_three, gain_two, gain_zero, disc_zero]
      have h1 := disc_pos 1
      have h2 := disc_pos 2
      have h3 : (0 : ℝ) < 3 / disc 1 := by positivity
      simp only [zero_div]
      linarith
    rw [ndcg_at_k, hsort, if_neg (ne_of_gt hpos), div_self (ne_of_gt hpos)]
  · intro k
    have hsort : sorted_desc [0, 0, 0] = ([0, 0, 0] : List ℝ) := by
      rw [sorted_desc]
      norm_num [List.insertionSort, List.orderedInsert]
    have hzero : dcg_at_k ([0, 0, 0] : List ℝ) k = 0 := by
      rw [dcg_at_k]
      match k with
      | 0 => simp [dcgAux]
      | 1 => norm_num [dcgAux, gain_zero]
      | 2 => norm_num [dcgAux, gain_zero]
      | (n + 3) =>
        rw [List.take_of_length_le (by simp)]
        norm_num [dcgAux, gain_zero]
    rw [ndcg_at_k, hsort, if_pos hzero]

/-! ### NDCG is bounded by 1: truncated rearrangement argument

`dcg_at_k` is a discount-weighted sum of gains.  Sorting the relevances
descending sorts the gains descending (the gain is monotone), the
descending-sorted list dominates every prefix sum of any permutation of it,
and an Abel summation over the antitone nonnegative discounts turns the
prefix-sum domination into domination of the weighted sums.
-/

theorem gain_mono {r s : ℝ} (h : r ≤ s) : gain r ≤ gain s := by
  rw [gain, gain]
  have := (Real.rpow_le_rpow_left_iff (x := 2) (by norm_num)).mpr h
  linarith

theorem gain_nonneg {r : ℝ} (h : 0 ≤ r) : 0 ≤ gain r := by
  have := gain_mono h
  rw [gain_zero] at this
  exact this

theorem disc_antitone (i : ℕ) : disc i ≤ disc (i + 1) := by
  rw [disc, disc]
  apply Real.logb_le_logb_of_le (by norm_num) (by positivity)
  push_cast
  linarith

/-- `dcgAux` as a `Finset.range` sum over padded positions. -/
theorem dcgAux_eq_sum (l : List ℝ) (i0 : ℕ) :
    dcgAux i0 l =
      ∑ j ∈ Finset.range l.length, gain (l.getD j 0) * (disc (i0 + j))⁻¹ := by
  induction l generalizing i0 with
  | nil => simp [dcgAux]
  | cons r rs ih =>
    rw [dcgAux, ih (i0 + 1)]
    rw [List.length_cons, Finset.sum_range_succ']
    simp only [List.getD_cons_succ, List.getD_cons_zero]
    have hsums : ∑ i ∈ Finset.range rs.length,
        gain (rs.getD i 0) * (disc (i0 + 1 + i))⁻¹ =
        ∑ i ∈ Finset.range rs.length,
        gain (rs.getD i 0) * (disc (i0 + (i + 1)))⁻¹ := by
      apply Finset.sum_congr rfl
      intro i _
      have harg : i0 + 1 + i = i0 + (i + 1) := by omega
      rw [harg]
    rw [add_comm, hsums, add_zero, div_eq_mul_inv]

/-- Padding beyond the list contributes nothing since `gain 0 = 0`. -/
theorem dcg_eq_sum (l : List ℝ) (k : ℕ) :
    dcg_at_k l k = ∑ j ∈ Finset.range k, gain (l.getD j 0) * (disc j)⁻¹ := by
  rw [dcg_at_k, dcgAux_eq_sum]
  simp only [zero_add]
  rw [List.length_take]
  have h1 : ∑ x ∈ Finset.range (min k l.length),
      gain ((l.take k).getD x 0) * (disc x)⁻¹ =
      ∑ x ∈ Finset.range (min k l.length), gain (l.getD x 0) * (disc x)⁻¹ := by
    apply Finset.sum_congr rfl
    intro x hx
    rw [Finset.mem_range] at hx
    have hgd : (l.take k).getD x 0 = l.getD x 0 := by
      rw [List.getD_eq_getElem?_getD, List.getD_eq_getElem?_getD,
        List.getElem?_take, if_pos (by omega)]
    rw [hgd]
  rw [h1]
  apply Finset.sum_subset
  · intro j hj
    rw [Finset.mem_range] at hj ⊢
    omega
  · intro j hjt hj
    rw [Finset.mem_range] at hjt
    rw [Finset.mem_range, not_lt] at hj
    have hgd : l.getD j 0 = 0 := by
      rw [List.getD_eq_getElem?_getD, List.getElem?_eq_none (by omega)]
      rfl
    rw [hgd, gain_zero, zero_mul]

/-- Prefix sums of padded entries are sums over `take`. -/
theorem sum_range_getD (l : List ℝ) (j : ℕ) :
    ∑ i ∈ Finset.range j, l.getD i 0 = (l.take j).sum := by
  induction j with
  | zero => simp
  | succ n ih =>
    rw [Finset.sum_range_succ, ih, List.take_succ]
    rw [List.sum_append]
    congr 1
    rw [List.getD_eq_getElem?_getD]
    cases h : l[n]? <;> simp [h]

/-- Sum of any sub-multiset of a descending-sorted list is at most the sum of
the same number of leading entries. -/
theorem multiset_sum_le_take (b : List ℝ) (hb : b.Sorted (· ≥ ·)) :
    ∀ s : Multiset ℝ, s ≤ (b : Multiset ℝ) →
      s.sum ≤ (b.take (Multiset.card s)).sum := by
  induction b with
  | nil =>
    intro s hs
    have : s = 0 := Multiset.le_zero.mp hs
    simp [this]
  | cons x b' ih =>
    intro s hs
    have hsorted' : b'.Sorted (· ≥ ·) := hb.of_cons
    have hxmax : ∀ y ∈ b', y ≤ x := fun y hy => List.rel_of_sorted_cons hb y hy
    by_cases hx : x ∈ s
    · have herase : s.erase x ≤ (b' : Multiset ℝ) := by
        have h1 := Multiset.erase_le_erase x hs
        rwa [show ((x :: b' : List ℝ) : Multiset ℝ) = x ::ₘ (b' : Multiset ℝ) from rfl,
          Multiset.erase_cons_head] at h1
      have hsum : s.sum = x + (s.erase x).sum := by
        conv_lhs => rw [← Multiset.cons_erase hx]
        rw [Multiset.sum_cons]
      have hcard : Multiset.card s = Multiset.card (s.erase x) + 1 :=
        (Multiset.card_erase_add_one hx).symm
      rw [hsum, hcard]
      rw [show (x :: b').take (Multiset.card (s.erase x) + 1) =
        x :: b'.take (Multiset.card (s.erase x)) from rfl]
      rw [List.sum_cons]
      exact add_le_add_left (ih hsorted' _ herase) x
    · have hsub : s ≤ (b' : Multiset ℝ) := by
        rw [Multiset.le_iff_count]
        intro a
        have hcount := Multiset.le_iff_count.mp hs a
        rw [show ((x :: b' : List ℝ) : Multiset ℝ) = x ::ₘ (b' : Multiset ℝ) from rfl]
          at hcount
        by_cases hax : a = x
        · subst hax
          simp [Multiset.count_eq_zero_of_not_mem hx]
        · rwa [Multiset.count_cons_of_ne hax] at hcount
      have hlen : Multiset.card s ≤ b'.length := by
        have := Multiset.card_le_card hsub
        simpa using this
      refine le_trans (ih hsorted' s hsub) ?_
      cases hc : Multiset.card s with
      | zero => simp
      | succ n =>
        rw [show (x :: b').take (n + 1) = x :: b'.take n from rfl, List.sum_cons]
        have hn : n < b'.length := by omega
        rw [List.take_succ, List.sum_append]
        have hget : (b'[n]?).toList.sum ≤ x := by
          rw [List.getElem?_eq_getElem hn]
          simpa using hxmax _ (List.getElem_mem hn)
        have hsplit : (b'.take n).sum + (b'[n]?).toList.sum ≤ x + (b'.take n).sum := by
          linarith
        exact hsplit

/-- Prefix-sum domination by the descending sort. -/
theorem take_sum_le_of_sorted (a b : List ℝ) (hperm : List.Perm a b)
    (hb : b.Sorted (· ≥ ·)) (j : ℕ) : (a.take j).sum ≤ (b.take j).sum := by
  have hcoe : ((a.take j : List ℝ) : Multiset ℝ) ≤ (b : Multiset ℝ) := by
    have h1 : ((a.take j : List ℝ) : Multiset ℝ) ≤ (a : Multiset ℝ) :=
      Multiset.coe_le.mpr (List.take_sublist j a).subperm
    have h2 : (a : Multiset ℝ) = (b : Multiset ℝ) := Multiset.coe_eq_coe.mpr hperm
    rw [h2] at h1
    exact h1
  have hcard : Multiset.card ((a.take j : List ℝ) : Multiset ℝ) = min j a.length := by
    simp
  have h := multiset_sum_le_take b hb _ hcoe
  rw [hcard] at h
  have hsum : Multiset.sum ((a.take j : List ℝ) : Multiset ℝ) = (a.take j).sum := by
    simp
  rw [hsum] at h
  refine le_trans h (le_of_eq ?_)
  have hlab : b.length = a.length := (hperm.length_eq).symm
  rcases le_total j a.length with hj | hj
  · rw [min_eq_left hj]
  · rw [min_eq_right hj]
    rw [List.take_of_length_le (by omega), List.take_of_length_le (by omega)]

/-- Abel summation: a discount-weighted sum written through prefix sums. -/
theorem weighted_sum_eq (w D : ℕ → ℝ) (k : ℕ) :
    ∑ i ∈ Finset.range k, w i * D i =
      (∑ j ∈ Finset.range k,
        (D j - D (j + 1)) * ∑ i ∈ Finset.range (j + 1), w i) +
        D k * ∑ i ∈ Finset.range k, w i := by
  induction k with
  | zero => simp
  | succ n ih =>
    rw [Finset.sum_range_succ (f := fun i => w i * D i), ih]
    rw [Finset.sum_range_succ
      (f := fun j => (D j - D (j + 1)) * ∑ i ∈ Finset.range (j + 1), w i)]
    rw [Finset.sum_range_succ (f := w)]
    ring

/-- Prefix-sum domination and antitone nonnegative discounts give weighted
sum domination. -/
theorem weighted_sum_le (w v D : ℕ → ℝ) (k : ℕ)
    (hD0 : ∀ i, 0 ≤ D i) (hDanti : ∀ i, D (i + 1) ≤ D i)
    (hP : ∀ j, ∑ i ∈ Finset.range j, w i ≤ ∑ i ∈ Finset.range j, v i) :
    ∑ i ∈ Finset.range k, w i * D i ≤ ∑ i ∈ Finset.range k, v i * D i := by
  rw [weighted_sum_eq w D k, weighted_sum_eq v D k]
  apply add_le_add
  · apply Finset.sum_le_sum
    intro j _
    have hc : 0 ≤ D j - D (j + 1) := by linarith [hDanti j]
    exact mul_le_mul_of_nonneg_left (hP (j + 1)) hc
  · exact mul_le_mul_of_nonneg_left (hP k) (hD0 k)

theorem map_gain_getD (l : List ℝ) (i : ℕ) :
    (l.map gain).getD i 0 = gain (l.getD i 0) := by
  rw [List.getD_eq_getElem?_getD, List.getD_eq_getElem?_getD, List.getElem?_map]
  cases h : l[i]? with
  | none => simp [gain_zero]
  | some a => simp

/-- The truncated rearrangement inequality for DCG: the descending sort
maximizes `dcg_at_k`. -/
theorem dcg_le_sorted (rels : List ℝ) (k : ℕ) :
    dcg_at_k rels k ≤ dcg_at_k (sorted_desc rels) k := by
  rw [dcg_eq_sum, dcg_eq_sum]
  apply weighted_sum_le
  · intro i
    exact inv_nonneg.mpr (le_of_lt (disc_pos i))
  · intro i
    exact inv_anti₀ (disc_pos i) (disc_antitone i)
  · intro j
    have hincl : ∀ (m : List ℝ) (i : ℕ), gain (m.getD i 0) = (m.map gain).getD i 0 :=
      fun m i => (map_gain_getD m i).symm
    calc ∑ i ∈ Finset.range j, gain (rels.getD i 0)
        = ∑ i ∈ Finset.range j, (rels.map gain).getD i 0 :=
          Finset.sum_congr rfl fun i _ => hincl rels i
      _ = ((rels.map gain).take j).sum := sum_range_getD _ j
      _ ≤ (((sorted_desc rels).map gain).take j).sum := by
          apply take_sum_le_of_sorted
          · exact ((List.perm_insertionSort _ rels).symm).map gain
          · apply List.Pairwise.map gain
            · intro a b hab
              exact gain_mono hab
            · exact List.sorted_insertionSort _ rels
      _ = ∑ i ∈ Finset.range j, ((sorted_desc rels).map gain).getD i 0 :=
          (sum_range_getD _ j).symm
      _ = ∑ i ∈ Finset.range j, gain ((sorted_desc rels).getD i 0) :=
          Finset.sum_congr rfl fun i _ => (hincl _ i).symm

theorem dcg_nonneg (rels : List ℝ) (k : ℕ) (h : ∀ r ∈ rels, 0 ≤ r) :
    0 ≤ dcg_at_k rels k := by
  rw [dcg_eq_sum]
  apply Finset.sum_nonneg
  intro i _
  apply mul_nonneg
  · apply gain_nonneg
    rw [List.getD_eq_getElem?_getD]
    cases hg : rels[i]? with
    | none => simp
    | some a =>
      simp only [Option.getD_some]
      exact h a (List.getElem?_mem hg)
  · exact inv_nonneg.mpr (le_of_lt (disc_pos i))

/-- C9: for nonnegative relevances and `k ≥ 1`, the DCG of the given order
never exceeds the DCG of the descending sort, and `ndcg_at_k` lies in
`[0, 1]`. -/
theorem ndcg_at_k_bounds (rels : List ℝ) (k : ℕ) (_hk : 1 ≤ k)
    (h : ∀ r ∈ rels, 0 ≤ r) :
    dcg_at_k rels k ≤ dcg_at_k (sorted_desc rels) k ∧
    0 ≤ ndcg_at_k rels k ∧ ndcg_at_k rels k ≤ 1 := by
  have hle := dcg_le_sorted rels k
  have hsorted_nonneg : ∀ r ∈ sorted_desc rels, 0 ≤ r := by
    intro r hr
    rw [sorted_desc] at hr
    exact h r ((List.mem_insertionSort _).mp hr)
  have hideal_nonneg := dcg_nonneg (sorted_desc rels) k hsorted_nonneg
  have hnum_nonneg := dcg_nonneg rels k h
  refine ⟨hle, ?_, ?_⟩
  · rw [ndcg_at_k]
    by_cases h0 : dcg_at_k (sorted_desc rels) k = 0
    · rw [if_pos h0]
    · rw [if_neg h0]
      exact div_nonneg hnum_nonneg hideal_nonneg
  · rw [ndcg_at_k]
    by_cases h0 : dcg_at_k (sorted_desc rels) k = 0
    · rw [if_pos h0]
      norm_num
    · rw [if_neg h0]
      have hpos : 0 < dcg_at_k (sorted_desc rels) k :=
        lt_of_le_of_ne hideal_nonneg (Ne.symm h0)
      rw [div_le_one hpos]
      exact hle

/-- Witness for C9 on the out-of-order relevance list `[1, 3]`. -/
theorem ndcg_at_k_bounds_witness :
    dcg_at_k [1, 3] 2 ≤ dcg_at_k (sorted_desc [1, 3]) 2 ∧
    0 ≤ ndcg_at_k [1, 3] 2 ∧ ndcg_at_k [1, 3] 2 ≤ 1 :=
  ndcg_at_k_bounds [1, 3] 2 (by norm_num)
    (by
      intro r hr
      simp only [List.mem_cons, List.not_mem_nil, or_false] at hr
      rcases hr with rfl | rfl <;> norm_num)

/-! ## Lexical retrieval (`retrieval.py`, `LexicalRetriever`)

The retriever fits `TfidfVectorizer(ngram_range=(1, 2), min_df=1)` on the
catalog texts and scores a query by `linear_kernel` of the l2-normalized
rows, i.e. by cosine similarity.  The vectorizer's documented semantics are
embedded: lowercase, tokens are maximal word-character runs of length at
least 2 (`\b\w\w+\b`), features are unigrams and bigrams, smooth idf
`ln((1 + n)/(1 + df)) + 1`, l2 row normalization with zero rows kept.
`query` ranks by `scores.argsort()[::-1][:top_k]`, i.e. an ascending argsort
reversed.
-/

/-- A regex `\w` word character (ASCII). -/
def isWordChar (c : Char) : Bool :=
  c.isAlpha || isDigit09 c || c = '_'

/-- The default `token_pattern`: lowercased maximal word-character runs of
length at least 2. -/
def sklearnTokens (s : String) : List String :=
  ((wordsAux (fun c => !isWordChar c) (s.data.map Char.toLower) []).filter
    (fun w => 2 ≤ w.length)).map fun l => ⟨l⟩

/-- `ngram_range=(1, 2)`: unigrams plus space-joined bigrams. -/
def docFeatures (toks : List String) : List String :=
  toks ++ (toks.zip toks.tail).map fun p => p.1 ++ " " ++ p.2

/-- The fitted vocabulary (a set; the order of coordinates does not affect
any dot product below). -/
def tfidfVocab (texts : List String) : List String :=
  (texts.flatMap fun t => docFeatures (sklearnTokens t)).dedup

/-- Document frequency of a feature. -/
def docFreq (texts : List String) (f : String) : ℕ :=
  (texts.filter fun t => (docFeatures (sklearnTokens t)).contains f).length

/-- Smooth idf (`smooth_idf=True`): `ln((1 + n)/(1 + df)) + 1`. -/
noncomputable def idf (texts : List String) (f : String) : ℝ :=
  Real.log ((1 + texts.length) / (1 + docFreq texts f)) + 1

/-- Raw (pre-normalization) tf-idf weight. -/
noncomputable def rawWeight (texts : List String) (t f : String) : ℝ :=
  ((docFeatures (sklearnTokens t)).count f : ℝ) * idf texts f

/-- Squared l2 norm of a row over the vocabulary. -/
noncomputable def sqNorm (texts : List String) (t : String) : ℝ :=
  ((tfidfVocab texts).map fun f => rawWeight texts t f ^ 2).sum

/-- An entry of the l2-normalized row (zero rows are kept, as in sklearn's
`normalize`). -/
noncomputable def tfidfEntry (texts : List String) (t f : String) : ℝ :=
  if sqNorm texts t = 0 then rawWeight texts t f
  else rawWeight texts t f / Real.sqrt (sqNorm texts t)

/-- `linear_kernel` of two normalized rows: the cosine similarity. -/
noncomputable def cosineScore (texts : List String) (q t : String) : ℝ :=
  ((tfidfVocab texts).map fun f => tfidfEntry texts q f * tfidfEntry texts t f).sum

/-- The score of the query against document index `i`. -/
noncomputable def lexicalScores (catalog : List CatalogItem) (text : String)
    (i : ℕ) : ℝ :=
  cosineScore (catalog.map fun c => c.text) text
    ((catalog.map fun c => c.text).getD i "")

/-- `scores.argsort()[::-1]`: ascending argsort (stable), then reversed. -/
noncomputable def argsortDesc (scores : ℕ → ℝ) (n : ℕ) : List ℕ :=
  ((List.range n).insertionSort fun i j => scores i ≤ scores j).reverse

/-- `LexicalRetriever.query(text, top_k)`. -/
noncomputable def lexicalQuery (catalog : List CatalogItem) (text : String)
    (top_k : ℕ) : List (ScoredItem ℝ) :=
  ((argsortDesc (lexicalScores catalog text) catalog.length).take top_k).map
    fun i =>
      ScoredItem.mk ((catalog.map fun c => c.item_id).getD i 0)
        (lexicalScores catalog text i) "lexical"

theorem listSum_nonneg_mem_pos (l : List ℝ) (h0 : ∀ x ∈ l, 0 ≤ x)
    (x : ℝ) (hx : x ∈ l) (hpos : 0 < x) : 0 < l.sum := by
  induction l with
  | nil => cases hx
  | cons a t ih =>
    rw [List.sum_cons]
    rcases List.mem_cons.mp hx with rfl | hmem
    · have ht : 0 ≤ t.sum :=
        List.sum_nonneg fun y hy => h0 y (List.mem_cons_of_mem _ hy)
      linarith
    · have ha : 0 ≤ a := h0 a (List.mem_cons_self _ _)
      have := ih (fun y hy => h0 y (List.mem_cons_of_mem _ hy)) hmem
      linarith

theorem listSum_map_mul_right (l : List String) (g : String → ℝ) (c : ℝ) :
    (l.map fun f => g f * c).sum = (l.map g).sum * c := by
  induction l with
  | nil => simp
  | cons a t ih => simp [ih, add_mul]

theorem idf_pos (texts : List String) (f : String) : 0 < idf texts f := by
  rw [idf]
  have hlog : 0 ≤ Real.log ((1 + texts.length) / (1 + docFreq texts f)) := by
    apply Real.log_nonneg
    rw [le_div_iff₀ (by positivity)]
    have hdf : (docFreq texts f : ℝ) ≤ (texts.length : ℝ) := by
      have : docFreq texts f ≤ texts.length := List.length_filter_le _ _
      exact_mod_cast this
    linarith
  linarith

theorem rawWeight_pos_of_mem (texts : List String) (t f : String)
    (hf : f ∈ docFeatures (sklearnTokens t)) : 0 < rawWeight texts t f := by
  rw [rawWeight]
  apply mul_pos _ (idf_pos texts f)
  have : 0 < (docFeatures (sklearnTokens t)).count f := List.count_pos_iff.mpr hf
  exact_mod_cast this

theorem sqNorm_nonneg (texts : List String) (t : String) : 0 ≤ sqNorm texts t :=
  List.sum_nonneg fun y hy => by
    obtain ⟨f, _, hfy⟩ := List.mem_map.mp hy
    rw [← hfy]
    positivity

/-- A document whose token list is in the fitted corpus and nonempty has a
strictly positive norm. -/
theorem sqNorm_pos (texts : List String) (t : String) (ht : t ∈ texts)
    (htok : sklearnTokens t ≠ []) : 0 < sqNorm texts t := by
  obtain ⟨t0, ts, htoks⟩ : ∃ t0 ts, sklearnTokens t = t0 :: ts := by
    cases h : sklearnTokens t with
    | nil => exact absurd h htok
    | cons t0 ts => exact ⟨t0, ts, rfl⟩
  have hfeat : t0 ∈ docFeatures (sklearnTokens t) := by
    rw [docFeatures, htoks]
    exact List.mem_append_left _ (List.mem_cons_self _ _)
  have hvocab : t0 ∈ tfidfVocab texts := by
    rw [tfidfVocab, List.mem_dedup]
    exact List.mem_flatMap.mpr ⟨t, ht, hfeat⟩
  apply listSum_nonneg_mem_pos _ _ (rawWeight texts t t0 ^ 2)
  · exact List.mem_map.mpr ⟨t0, hvocab, rfl⟩
  · have := rawWeight_pos_of_mem texts t t0 hfeat
    positivity
  · intro y hy
    obtain ⟨f, _, hfy⟩ := List.mem_map.mp hy
    rw [← hfy]
    positivity

/-- Cosine similarity of a corpus document with itself is exactly 1. -/
theorem cosineScore_self (texts : List String) (q : String) (hq : q ∈ texts)
    (htok : sklearnTokens q ≠ []) : cosineScore texts q q = 1 := by
  have hpos := sqNorm_pos texts q hq htok
  have hne : sqNorm texts q ≠ 0 := ne_of_gt hpos
  have hsqrt : (0 : ℝ) < Real.sqrt (sqNorm texts q) := Real.sqrt_pos.mpr hpos
  rw [cosineScore]
  have hmap : ((tfidfVocab texts).map fun f =>
      tfidfEntry texts q f * tfidfEntry texts q f) =
      (tfidfVocab texts).map fun f =>
        rawWeight texts q f ^ 2 * (sqNorm texts q)⁻¹ := by
    apply List.map_congr_left
    intro f _
    rw [tfidfEntry, if_neg hne]
    rw [div_mul_div_comm, ← pow_two, ← pow_two,
      Real.sq_sqrt (sqNorm_nonneg texts q)]
    rw [div_eq_mul_inv]
  rw [hmap, listSum_map_mul_right]
  rw [show ((tfidfVocab texts).map fun f => rawWeight texts q f ^ 2).sum =
    sqNorm texts q from rfl]
  exact mul_inv_cancel₀ hne

/-- A document with no valid tokens has an all-zero row: its score is 0. -/
theorem cosineScore_zero_right (texts : List String) (q t : String)
    (ht : sklearnTokens t = []) : cosineScore texts q t = 0 := by
  have hraw : ∀ f, rawWeight texts t f = 0 := by
    intro f
    rw [rawWeight, ht]
    rw [show docFeatures [] = [] from rfl]
    simp
  have hentry : ∀ f, tfidfEntry texts t f = 0 := by
    intro f
    rw [tfidfEntry]
    by_cases h0 : sqNorm texts t = 0
    · rw [if_pos h0, hraw]
    · rw [if_neg h0, hraw, zero_div]
  rw [cosineScore]
  have hmap : ((tfidfVocab texts).map fun f =>
      tfidfEntry texts q f * tfidfEntry texts t f) =
      (tfidfVocab texts).map fun _ => (0 : ℝ) := by
    apply List.map_congr_left
    intro f _
    rw [hentry, mul_zero]
  rw [hmap]
  induction tfidfVocab texts with
  | nil => rfl
  | cons a l ih => simp [ih]

/-- Unfolding of the two-document argsort: the second document comes first
exactly when its score is at least the first's (ties reversed). -/
theorem argsortDesc_two (scores : ℕ → ℝ) :
    argsortDesc scores 2 =
      if scores 0 ≤ scores 1 then [1, 0] else [0, 1] := by
  rw [argsortDesc]
  rw [show List.range 2 = [0, 1] from rfl]
  rw [show ([0, 1] : List ℕ).insertionSort (fun i j => scores i ≤ scores j) =
    List.orderedInsert (fun i j => scores i ≤ scores j) 0 [1] from rfl]
  rw [List.orderedInsert]
  by_cases h : scores 0 ≤ scores 1
  · rw [if_pos h, if_pos h]
    rfl
  · rw [if_neg h, if_neg h]
    rfl

/-- C7 counterexample input: two catalog items with identical text tie on
every query, and `query` returns them in reverse catalog order (item 2
before item 1), not catalog order. -/
theorem lexicalQuery_tie_counterexample :
    ((lexicalQuery
        [⟨1, "pizza pasta", "italian", "cheap", 4, 10, 30, false, none⟩,
         ⟨2, "pizza pasta", "italian", "cheap", 4, 10, 30, false, none⟩]
        "pizza" 2).map fun it => it.item_id) = [2, 1] := by
  rw [lexicalQuery]
  rw [show ([⟨1, "pizza pasta", "italian", "cheap", 4, 10, 30, false, none⟩,
      ⟨2, "pizza pasta", "italian", "cheap", 4, 10, 30, false, none⟩] :
        List CatalogItem).length = 2 from rfl]
  rw [argsortDesc_two]
  have hs : lexicalScores
      [⟨1, "pizza pasta", "italian", "cheap", 4, 10, 30, false, none⟩,
       ⟨2, "pizza pasta", "italian", "cheap", 4, 10, 30, false, none⟩]
      "pizza" 0 =
      lexicalScores
      [⟨1, "pizza pasta", "italian", "cheap", 4, 10, 30, false, none⟩,
       ⟨2, "pizza pasta", "italian", "cheap", 4, 10, 30, false, none⟩]
      "pizza" 1 := rfl
  rw [if_pos (le_of_eq hs)]
  rfl

/-- C7 amended, part used by the end-to-end scenario: with a strictly larger
score for the first item, the first item is ranked first. -/
theorem lexicalQuery_two_strict (A B : CatalogItem) (q : String)
    (hlt : lexicalScores [A, B] q 1 < lexicalScores [A, B] q 0) :
    ((lexicalQuery [A, B] q 2).map fun it => it.item_id) =
      [A.item_id, B.item_id] := by
  rw [lexicalQuery]
  rw [show ([A, B] : List CatalogItem).length = 2 from rfl]
  rw [argsortDesc_two, if_neg (not_le.mpr hlt)]
  rfl

/-- C7 amended: `query` returns items in non-increasing cosine-similarity
order (ties come out in reverse catalog order, as the separate
counterexample shows); for a two-item catalog where A's score strictly
exceeds B's, A is ranked above B; and an item whose text exactly matches
the query (with at least one valid token) has cosine score exactly 1. -/
theorem lexicalQuery_spec (catalog : List CatalogItem) (text : String)
    (top_k : ℕ) (A B : CatalogItem) (q : String)
    (hlt : lexicalScores [A, B] q 1 < lexicalScores [A, B] q 0)
    (hqA : A.text = q) (htok : sklearnTokens q ≠ []) :
    (lexicalQuery catalog text top_k).Pairwise (fun a b => b.score ≤ a.score) ∧
    ((lexicalQuery [A, B] q 2).map fun it => it.item_id) =
      [A.item_id, B.item_id] ∧
    lexicalScores [A, B] q 0 = 1 := by
  refine ⟨?_, lexicalQuery_two_strict A B q hlt, ?_⟩
  · haveI hTot : IsTotal ℕ
        (fun i j => lexicalScores catalog text i ≤ lexicalScores catalog text j) :=
      ⟨fun a b => le_total _ _⟩
    haveI hTrans : IsTrans ℕ
        (fun i j => lexicalScores catalog text i ≤ lexicalScores catalog text j) :=
      ⟨fun _ _ _ h1 h2 => le_trans h1 h2⟩
    rw [lexicalQuery, List.pairwise_map]
    apply List.Pairwise.sublist (List.take_sublist _ _)
    rw [argsortDesc, List.pairwise_reverse]
    exact List.sorted_insertionSort _ _
  · rw [lexicalScores]
    rw [show ((([A, B] : List CatalogItem).map fun c => c.text).getD 0 "") =
      A.text from rfl]
    rw [hqA]
    apply cosineScore_self
    · rw [show (([A, B] : List CatalogItem).map fun c => c.text) =
        [A.text, B.text] from rfl, hqA]
      exact List.mem_cons_self _ _
    · exact htok

/-- Witness for the amended C7: A's text is the query, B's text has no valid
tokens (so B scores 0 while A scores 1). -/
theorem lexicalQuery_spec_witness :
    (lexicalQuery
        [⟨1, "sushi bar", "japanese", "cheap", 4, 10, 30, false, none⟩,
         ⟨2, "", "italian", "cheap", 4, 10, 30, false, none⟩]
        "sushi bar" 2).Pairwise (fun a b => b.score ≤ a.score) ∧
    ((lexicalQuery
        [⟨1, "sushi bar", "japanese", "cheap", 4, 10, 30, false, none⟩,
         ⟨2, "", "italian", "cheap", 4, 10, 30, false, none⟩]
        "sushi bar" 2).map fun it => it.item_id) = [(1 : Int), 2] ∧
    lexicalScores
      [⟨1, "sushi bar", "japanese", "cheap", 4, 10, 30, false, none⟩,
       ⟨2, "", "italian", "cheap", 4, 10, 30, false, none⟩]
      "sushi bar" 0 = 1 := by
  have hz : lexicalScores
      [⟨1, "sushi bar", "japanese", "cheap", 4, 10, 30, false, none⟩,
       ⟨2, "", "italian", "cheap", 4, 10, 30, false, none⟩]
      "sushi bar" 1 = 0 := by
    rw [lexicalScores]
    exact cosineScore_zero_right _ _ _ rfl
  have ho : lexicalScores
      [⟨1, "sushi bar", "japanese", "cheap", 4, 10, 30, false, none⟩,
       ⟨2, "", "italian", "cheap", 4, 10, 30, false, none⟩]
      "sushi bar" 0 = 1 := by
    rw [lexicalScores]
    refine cosineScore_self _ _ ?_ (by decide)
    exact List.mem_cons_self _ _
  exact lexicalQuery_spec
    [⟨1, "sushi bar", "japanese", "cheap", 4, 10, 30, false, none⟩,
     ⟨2, "", "italian", "cheap", 4, 10, 30, false, none⟩]
    "sushi bar" 2
    ⟨1, "sushi bar", "japanese", "cheap", 4, 10, 30, false, none⟩
    ⟨2, "", "italian", "cheap", 4, 10, 30, false, none⟩
    "sushi bar" (by rw [hz, ho]; norm_num) rfl (by decide)

end SearchDemo
